import Mathlib

set_option maxHeartbeats 1000000

/-!
# Verification of git-sonic's workflow engine and agent loop

Shallow embedding of the parts of the git-sonic repository that the
specification's claims are about, together with proofs or refutations of
those claims.

* Conversation data model and history management
  (`src/pkg/llm/api.go`, `src/unnamed/part_004`, `src/unnamed/part_005`)
* Label transitions and the issue-decision branch of the workflow engine
  (`src/internal/service/workflow/engine.go`)
* The git client's porcelain parsing and URL token handling
  (`src/unnamed/part_006`)
* The tool context's path validation (`src/unnamed/part_009`)
* The bash tool's timeout handling (`src/pkg/tools/builtin/bash.go`)
* The LLM output parser (`src/pkg/llm/llm.go`)

Go strings are modelled as Lean `String`s (rune-level; the sources only
manipulate ASCII delimiters, where Go's byte-level indexing agrees).
Go maps used as sets are modelled as lists with membership semantics; where
the Go code emits map contents in unspecified iteration order, the model
fixes first-occurrence order and documents it at the definition.
-/

namespace GitSonic

/-! ## Conversation data model (src/pkg/llm/api.go)

`Role`, `ContentType` are Go string types; we keep them as strings, with the
constants below.  `ContentBlock` is the flat Go struct with a `Type` tag and
zero values for unused fields. -/

def roleUser : String := "user"

def roleAssistant : String := "assistant"

def contentTypeText : String := "text"

def contentTypeToolUse : String := "tool_use"

def contentTypeToolResult : String := "tool_result"

/-- `llm.ContentBlock` (src/pkg/llm/api.go, lines 258-273).  The `Input`
map of a tool_use block is not inspected by any code under verification and
is omitted. -/
structure ContentBlock where
  type : String := ""
  text : String := ""
  id : String := ""
  name : String := ""
  toolUseID : String := ""
  content : String := ""
  isError : Bool := false
deriving DecidableEq, Repr, Inhabited

/-- `llm.Message` (src/pkg/llm/api.go, lines 276-279). -/
structure Message where
  role : String := ""
  content : List ContentBlock := []
deriving DecidableEq, Repr, Inhabited

/-- `llm.NewTextMessage` (src/pkg/llm/api.go). -/
def NewTextMessage (role text : String) : Message :=
  { role := role, content := [{ type := contentTypeText, text := text }] }

/-! ## validateToolPairs (src/unnamed/part_005, lines 36-79) -/

/-- The tool_use-id collection pass of `validateToolPairs`: ids of all
tool_use blocks with a non-empty ID, across all messages. -/
def collectAllToolUseIDs (messages : List Message) : List String :=
  (messages.map fun m =>
    (m.content.filter fun b => b.type == contentTypeToolUse && b.id != "").map (·.id)).flatten

/-- One block is an orphan in `validateToolPairs`' second pass: a tool_result
whose `ToolUseID` is empty or not among the collected tool_use ids. -/
def isOrphanResult (ids : List String) (b : ContentBlock) : Bool :=
  b.type == contentTypeToolResult && (b.toolUseID == "" || !(ids.contains b.toolUseID))

/-- `validateToolPairs` (src/unnamed/part_005): `true` iff the Go function
returns a nil error, i.e. no orphaned tool_results exist.  Note that the Go
code collects tool_use ids from the *whole* list before checking, so a
tool_result is satisfied by a tool_use *anywhere* in the list, not only by an
earlier one. -/
def validateToolPairs (messages : List Message) : Bool :=
  let ids := collectAllToolUseIDs messages
  messages.all fun m => m.content.all fun b => !(isOrphanResult ids b)

/-! ## truncateMessages (src/unnamed/part_005, lines 421-547) -/

/-- Indexing `messages[j]` (always in-bounds in the Go code; out-of-range
yields the zero Message). -/
def msgAt (messages : List Message) (i : Nat) : Message :=
  messages.getD i {}

/-- Ids of the tool_use blocks of one message that have a non-empty ID. -/
def toolUseIDsOfMessage (m : Message) : List String :=
  (m.content.filter fun b => b.type == contentTypeToolUse && b.id != "").map (·.id)

/-- The `collectToolUseIDs` closure inside `truncateMessages`: tool_use ids of
`messages[0]` (when `includeFirst`) together with those of `messages[from:]`. -/
def collectToolUseIDs (messages : List Message) (from_ : Nat) (includeFirst : Bool) :
    List String :=
  (if includeFirst then toolUseIDsOfMessage (msgAt messages 0) else []) ++
    ((messages.drop from_).map toolUseIDsOfMessage).flatten

/-- Whether a message contains a tool_use block with the given id. -/
def msgHasToolUse (m : Message) (id : String) : Bool :=
  m.content.any fun b => b.type == contentTypeToolUse && b.id == id

/-- The backward scan `for j := keepFrom - 1; j >= 1; j--` of
`truncateMessages`: the largest index in `[1, keepFrom-1]` whose message
contains a tool_use with the given id. -/
def backwardFindToolUse (messages : List Message) (keepFrom : Nat) (id : String) :
    Option Nat :=
  ((List.range' 1 (keepFrom - 1)).reverse).find? fun j => msgHasToolUse (msgAt messages j) id

/-- All content blocks of `messages[k:]`, in message order. -/
def blocksFrom (messages : List Message) (k : Nat) : List ContentBlock :=
  ((messages.drop k).map (·.content)).flatten

/-- One iteration of the fixed-point loop of `truncateMessages`: scan
`messages[keepFrom:]` in order for the first orphaned tool_result whose owning
tool_use can be found by the backward scan; return the new `keepFrom`. -/
def findTruncFixup (messages : List Message) (keepFrom : Nat) : Option Nat :=
  let ids := collectToolUseIDs messages keepFrom true
  (blocksFrom messages keepFrom).findSome? fun b =>
    if b.type == contentTypeToolResult && b.toolUseID != "" && !(ids.contains b.toolUseID)
    then backwardFindToolUse messages keepFrom b.toolUseID
    else none

/-- The fixed-point loop of `truncateMessages` with its 100-iteration safety
cap as fuel. -/
def truncFixpoint (messages : List Message) : Nat → Nat → Nat
  | 0, keepFrom => keepFrom
  | fuel + 1, keepFrom =>
    match findTruncFixup messages keepFrom with
    | none => keepFrom
    | some j => truncFixpoint messages fuel j

/-- `truncateMessages` (src/unnamed/part_005).  In Go, `keepFrom` starts at
`len - maxMessages + 1` (with a floor of 1); since the function only runs when
`len > maxMessages`, the Go int arithmetic agrees with the `Nat` arithmetic
below.  The final orphan check in the Go code only logs warnings and does not
change the returned list, so it is not modelled. -/
def truncateMessages (messages : List Message) (maxMessages : Nat) : List Message :=
  if messages.length ≤ maxMessages then messages
  else
    let keepFrom0 := max 1 (messages.length - maxMessages + 1)
    let keepFrom := truncFixpoint messages 100 keepFrom0
    messages.take 1 ++ messages.drop keepFrom

/-! ## Compactor (src/unnamed/part_004, lines 219-459)

The provider call made by `generateSummary` is abstracted by a parameter
`providerText : Option String`: `none` models a failed `provider.Call`, and
`some s` models a successful call whose response text is `s`.
`generateSummary` turns an empty response text into a failure, exactly as the
Go code does. -/

structure CompactConfig where
  enabled : Bool := false
  threshold : Nat := 0
  keepRecent : Nat := 0
deriving DecidableEq, Repr, Inhabited

/-- `Compactor.generateSummary`: fails when the provider call fails or when
the response text is empty. -/
def generateSummary (providerText : Option String) : Option String :=
  match providerText with
  | none => none
  | some s => if s == "" then none else some s

/-- The single assistant message holding the summary that `Compact` inserts. -/
def summaryMessage (n : Nat) (summary : String) : Message :=
  { role := roleAssistant,
    content := [{ type := contentTypeText,
                  text := "[Conversation Summary - " ++ toString n ++
                    " messages compacted]\n\n" ++ summary }] }

/-- `ensureToolPairsIntact` (src/unnamed/part_004): prepend older messages
containing tool_uses that orphaned tool_results of the recent slab refer to. -/
def ensureToolPairsIntact (recentMessages olderMessages : List Message) : List Message :=
  let recentToolUseIDs := (recentMessages.map toolUseIDsOfMessage).flatten
  let orphanedResults :=
    ((recentMessages.map (·.content)).flatten.filter fun b =>
      b.type == contentTypeToolResult && b.toolUseID != "" &&
        !(recentToolUseIDs.contains b.toolUseID)).map (·.toolUseID)
  if orphanedResults.isEmpty then recentMessages
  else
    let toolUseMessages := olderMessages.filter fun m =>
      m.content.any fun b => b.type == contentTypeToolUse && orphanedResults.contains b.id
    if toolUseMessages.isEmpty then recentMessages
    else toolUseMessages ++ recentMessages

/-- `Compactor.Compact` (src/unnamed/part_004, lines 275-333).  Every Go
return path has a nil error, so the result is a plain list.  On summary
failure the code falls back to `truncateMessages(messages, keepRecent+1)`. -/
def compact (keepRecent : Nat) (providerText : Option String) (messages : List Message) :
    List Message :=
  if messages.length ≤ keepRecent + 1 then messages
  else
    let summarizeEnd := messages.length - keepRecent
    if summarizeEnd ≤ 1 then messages
    else
      match generateSummary providerText with
      | none => truncateMessages messages (keepRecent + 1)
      | some summary =>
        let messagesToSummarize := (messages.drop 1).take (summarizeEnd - 1)
        let recent := ensureToolPairsIntact (messages.drop summarizeEnd)
          (messages.take summarizeEnd)
        messages.take 1 ++ [summaryMessage messagesToSummarize.length summary] ++ recent

/-- Marks exactly the branch of `Compact` on which `generateSummary` (and
hence the provider) is invoked. -/
def compactCallsProvider (keepRecent : Nat) (messages : List Message) : Bool :=
  if messages.length ≤ keepRecent + 1 then false
  else if messages.length - keepRecent ≤ 1 then false
  else true

/-- `Compactor.ShouldCompact` (src/unnamed/part_004, lines 265-270). -/
def shouldCompact (cfg : CompactConfig) (messages : List Message) : Bool :=
  cfg.enabled && decide (messages.length > cfg.threshold)

/-! ## The history-size management step of AgentLoop.Run
(src/unnamed/part_005, lines 175-204) -/

structure HistoryConfig where
  compactCfg : CompactConfig := {}
  maxMessages : Nat := 50
deriving DecidableEq, Repr, Inhabited

/-- The per-iteration history management of `AgentLoop.Run`: compaction (when
configured and over threshold; `state.Messages` is updated to the compacted
list on success — and `Compact` never fails), then truncation, then
validation with fallback to `state.Messages`.  Returns
`(messages sent to the provider, state.Messages after this step)`. -/
def manageHistory (cfg : HistoryConfig) (providerText : Option String)
    (stateMessages : List Message) : List Message × List Message :=
  let afterCompact :=
    if cfg.compactCfg.enabled && shouldCompact cfg.compactCfg stateMessages then
      compact cfg.compactCfg.keepRecent providerText stateMessages
    else stateMessages
  let candidate :=
    if afterCompact.length > cfg.maxMessages then truncateMessages afterCompact cfg.maxMessages
    else afterCompact
  if validateToolPairs candidate then (candidate, afterCompact)
  else (afterCompact, afterCompact)

/-! ## Tool-pair properties of the managed history (claims C1, C6, C10) -/

/-- Semantic reading of `validateToolPairs` passing: every tool_result block
has a non-empty id matched by a tool_use block *somewhere* in the list. -/
def messagesPairedAnywhere (messages : List Message) : Prop :=
  ∀ m ∈ messages, ∀ b ∈ m.content, b.type = contentTypeToolResult →
    b.toolUseID ≠ "" ∧ ∃ m' ∈ messages, ∃ b' ∈ m'.content,
      b'.type = contentTypeToolUse ∧ b'.id = b.toolUseID

/-- The property claimed by the spec: every tool_result block has a matching
tool_use block with the same id *earlier* in the flattened block order. -/
def resultsPairedEarlier : List String → List ContentBlock → Bool
  | _, [] => true
  | seen, b :: rest =>
    if b.type == contentTypeToolUse then resultsPairedEarlier (b.id :: seen) rest
    else if b.type == contentTypeToolResult then
      b.toolUseID != "" && seen.contains b.toolUseID && resultsPairedEarlier seen rest
    else resultsPairedEarlier seen rest

def messagesPairedEarlier (messages : List Message) : Bool :=
  resultsPairedEarlier [] ((messages.map (·.content)).flatten)

theorem mem_collectAllToolUseIDs {messages : List Message} {x : String} :
    x ∈ collectAllToolUseIDs messages ↔
      ∃ m ∈ messages, ∃ b ∈ m.content,
        b.type = contentTypeToolUse ∧ b.id ≠ "" ∧ b.id = x := by
  simp only [collectAllToolUseIDs, List.mem_flatten, List.mem_map, List.mem_filter,
    Bool.and_eq_true, beq_iff_eq, bne_iff_ne]
  constructor
  · rintro ⟨_, ⟨m, hm, rfl⟩, hx⟩
    simp only [List.mem_map, List.mem_filter, Bool.and_eq_true, beq_iff_eq, bne_iff_ne] at hx
    obtain ⟨b, ⟨hb, ht, hid⟩, rfl⟩ := hx
    exact ⟨m, hm, b, hb, ht, hid, rfl⟩
  · rintro ⟨m, hm, b, hb, ht, hid, rfl⟩
    refine ⟨_, ⟨m, hm, rfl⟩, ?_⟩
    simp only [List.mem_map, List.mem_filter, Bool.and_eq_true, beq_iff_eq, bne_iff_ne]
    exact ⟨b, ⟨hb, ht, hid⟩, rfl⟩

theorem validateToolPairs_eq_true_iff {messages : List Message} :
    validateToolPairs messages = true ↔ messagesPairedAnywhere messages := by
  unfold validateToolPairs messagesPairedAnywhere
  simp only [List.all_eq_true, Bool.not_eq_eq_eq_not, Bool.not_true, isOrphanResult,
    Bool.and_eq_false_iff, beq_eq_false_iff_ne, Bool.or_eq_false_iff,
    Bool.not_eq_false']
  constructor
  · intro h m hm b hb ht
    rcases h m hm b hb with hne | ⟨hid, hc⟩
    · exact absurd ht hne
    · refine ⟨by simpa using hid, ?_⟩
      have := List.mem_of_elem_eq_true hc
      rcases mem_collectAllToolUseIDs.mp this with ⟨m', hm', b', hb', ht', _, hid'⟩
      exact ⟨m', hm', b', hb', ht', hid'⟩
  · intro h m hm b hb
    by_cases ht : b.type = contentTypeToolResult
    · rcases h m hm b hb ht with ⟨hne, m', hm', b', hb', ht', hid'⟩
      refine Or.inr ⟨by simpa using hne, ?_⟩
      exact List.elem_eq_true_of_mem
        (mem_collectAllToolUseIDs.mpr ⟨m', hm', b', hb', ht', hid' ▸ hne, hid'⟩)
    · exact Or.inl ht

/-- C1 (amended): for every starting history, the list actually sent to the
provider by the history-management step either has every tool_result matched
by a tool_use with the same id somewhere in that same list, or is exactly the
loop's current message history at validation time (`state.Messages`, which is
the compacted list when compaction ran this iteration and the untransformed
list otherwise). -/
theorem c1_candidate_paired_anywhere_or_reverted (cfg : HistoryConfig)
    (providerText : Option String) (stateMessages : List Message) :
    messagesPairedAnywhere (manageHistory cfg providerText stateMessages).1 ∨
      (manageHistory cfg providerText stateMessages).1 =
        (manageHistory cfg providerText stateMessages).2 := by
  have key : ∀ cand st : List Message,
      messagesPairedAnywhere (if validateToolPairs cand then (cand, st) else (st, st)).1 ∨
        (if validateToolPairs cand then (cand, st) else (st, st)).1 =
          (if validateToolPairs cand then (cand, st) else (st, st)).2 := by
    intro cand st
    by_cases hv : validateToolPairs cand
    · rw [if_pos hv]; exact Or.inl (validateToolPairs_eq_true_iff.mp hv)
    · rw [if_neg hv]; exact Or.inr rfl
  exact key _ _

/-- Concrete conversation refuting C1 as stated: the tool_result precedes its
tool_use, truncation keeps both, validation passes (it checks ids anywhere,
not earlier), so the sent list is neither earlier-paired nor the full list. -/
def c1msgs : List Message :=
  [NewTextMessage roleUser "m0", NewTextMessage roleAssistant "m1",
   { role := roleUser,
     content := [{ type := contentTypeToolResult, toolUseID := "a", content := "r" }] },
   { role := roleAssistant,
     content := [{ type := contentTypeToolUse, id := "a", name := "t" }] }]

def c1cfg : HistoryConfig := { compactCfg := {}, maxMessages := 3 }

/-- C1 (counterexample): on `c1msgs` with `maxMessages = 3`, the list sent to
the provider has a tool_result with no matching tool_use earlier in the list,
and it is not the full untransformed message list either. -/
theorem c1_counterexample :
    ¬ (messagesPairedEarlier (manageHistory c1cfg none c1msgs).1 = true ∨
        (manageHistory c1cfg none c1msgs).1 = c1msgs) := by decide

/-- C10: a conversation of at most `keepRecent + 1` messages is returned
unchanged by `Compact`, and the provider is not called. -/
theorem c10_small_conversation_identity (keepRecent : Nat) (providerText : Option String)
    (messages : List Message) (h : messages.length ≤ keepRecent + 1) :
    compact keepRecent providerText messages = messages ∧
      compactCallsProvider keepRecent messages = false := by
  constructor
  · unfold compact; rw [if_pos h]
  · unfold compactCallsProvider; rw [if_pos h]

theorem c10_witness :
    compact 1 none [NewTextMessage roleUser "hi"] = [NewTextMessage roleUser "hi"] ∧
      compactCallsProvider 1 [NewTextMessage roleUser "hi"] = false :=
  c10_small_conversation_identity 1 none [NewTextMessage roleUser "hi"] (by decide)

/-! ### C6: provider failure during compaction -/

theorem findTruncFixup_eq_none_of_no_results {messages : List Message} {k : Nat}
    (h : ∀ m ∈ messages, ∀ b ∈ m.content, b.type ≠ contentTypeToolResult) :
    findTruncFixup messages k = none := by
  unfold findTruncFixup
  refine List.findSome?_eq_none_iff.mpr fun b hb => ?_
  have hmem : ∃ m ∈ messages, b ∈ m.content := by
    simp only [blocksFrom, List.mem_flatten, List.mem_map] at hb
    obtain ⟨_, ⟨m, hm, rfl⟩, hbm⟩ := hb
    exact ⟨m, List.mem_of_mem_drop hm, hbm⟩
  obtain ⟨m, hm, hbm⟩ := hmem
  have hne : (b.type == contentTypeToolResult) = false :=
    beq_eq_false_iff_ne.mpr (h m hm b hbm)
  simp [hne]

/-- C6 (amended): when the provider call fails on a conversation of more than
`keepRecent + 1` messages, `Compact` returns (without error) the
pair-preserving truncation to `keepRecent + 1` messages; when no tool_result
blocks are present this is exactly the first message followed by the last
`keepRecent` messages (so `keepRecent + 1` messages in total, not the first
message plus the last `keepRecent + 1`). -/
theorem c6_provider_failure_plain_truncation (keepRecent : Nat) (messages : List Message)
    (h : messages.length > keepRecent + 1) :
    compact keepRecent none messages = truncateMessages messages (keepRecent + 1) ∧
      ((∀ m ∈ messages, ∀ b ∈ m.content, b.type ≠ contentTypeToolResult) →
        compact keepRecent none messages =
          messages.take 1 ++ messages.drop (messages.length - keepRecent)) := by
  have h1 : ¬ messages.length ≤ keepRecent + 1 := not_le.mpr h
  have h2 : ¬ (messages.length - keepRecent ≤ 1) := by omega
  have hmain : compact keepRecent none messages = truncateMessages messages (keepRecent + 1) := by
    unfold compact
    rw [if_neg h1]
    dsimp only
    rw [if_neg h2]
    rfl
  refine ⟨hmain, fun hno => ?_⟩
  rw [hmain]
  unfold truncateMessages
  rw [if_neg h1]
  dsimp only
  rw [show truncFixpoint messages 100 (max 1 (messages.length - (keepRecent + 1) + 1)) =
      max 1 (messages.length - (keepRecent + 1) + 1) from by
    show truncFixpoint messages (99 + 1) _ = _
    unfold truncFixpoint
    rw [findTruncFixup_eq_none_of_no_results hno]]
  congr 1
  congr 1
  omega

/-- Concrete five-message conversation for C6. -/
def c6msgs : List Message :=
  [NewTextMessage roleUser "m0", NewTextMessage roleAssistant "m1",
   NewTextMessage roleUser "m2", NewTextMessage roleAssistant "m3",
   NewTextMessage roleUser "m4"]

/-- C6 (counterexample): with `keepRecent = 2` and five plain messages, the
provider-failure fallback returns 3 messages (first + last two), not the
first message followed by the last `keepRecent + 1 = 3` messages. -/
theorem c6_counterexample :
    c6msgs.length > 2 + 1 ∧
      compact 2 none c6msgs ≠ c6msgs.take 1 ++ c6msgs.drop (c6msgs.length - (2 + 1)) := by
  decide

theorem c6_witness :
    compact 2 none c6msgs = truncateMessages c6msgs 3 ∧
      ((∀ m ∈ c6msgs, ∀ b ∈ m.content, b.type ≠ contentTypeToolResult) →
        compact 2 none c6msgs = c6msgs.take 1 ++ c6msgs.drop (c6msgs.length - 2)) :=
  c6_provider_failure_plain_truncation 2 c6msgs (by decide)

/-! ## updateProgressLabels and label transitions
(src/internal/service/workflow/engine.go, lines 766-788, 405-413, 448-468,
532-540) -/

/-- `updateProgressLabels`.  The Go function builds string-keyed maps
(`removeSet` and `labels`), so its output order is Go-map iteration order
(unspecified); this model produces the same membership with deterministic
first-occurrence order and no duplicates. -/
def updateProgressLabels (current : List String) (add : String) (remove : List String) :
    List String :=
  let removeSet := remove.filter (· != "")
  let kept := (current.filter fun l => !(removeSet.contains l)).dedup
  if add != "" then (if kept.contains add then kept else kept ++ [add]) else kept

theorem list_contains_iff {l : List String} {a : String} : l.contains a = true ↔ a ∈ l := by
  simp [List.contains]

theorem list_contains_eq_false_iff {l : List String} {a : String} :
    l.contains a = false ↔ a ∉ l := by
  rw [← Bool.not_eq_true]; exact not_congr list_contains_iff

theorem mem_kept_labels (current remove : List String) (y : String) :
    (y ∈ (current.filter fun l => !((remove.filter (· != "")).contains l)).dedup ↔
      (y ∈ current ∧ (y ∉ remove ∨ y = ""))) := by
  simp only [List.mem_dedup, List.mem_filter, Bool.not_eq_true', list_contains_eq_false_iff,
    bne_iff_ne]
  tauto

theorem mem_updateProgressLabels {current remove : List String} {add x : String} :
    x ∈ updateProgressLabels current add remove ↔
      ((x ∈ current ∧ (x ∉ remove ∨ x = "")) ∨ (add ≠ "" ∧ x = add)) := by
  unfold updateProgressLabels
  by_cases ha : add = ""
  · subst ha
    rw [if_neg (by simp)]
    rw [mem_kept_labels]
    constructor
    · exact fun h => Or.inl h
    · rintro (h | ⟨hc, _⟩)
      · exact h
      · exact absurd rfl hc
  · rw [if_pos (by simpa [bne_iff_ne] using ha)]
    by_cases hc :
        ((current.filter fun l => !((remove.filter (· != "")).contains l)).dedup).contains add
    · rw [if_pos hc]
      rw [mem_kept_labels]
      constructor
      · exact fun h => Or.inl h
      · rintro (h | ⟨_, rfl⟩)
        · exact h
        · exact (mem_kept_labels current remove x).mp (List.mem_of_elem_eq_true hc)
    · rw [if_neg hc]
      simp only [List.mem_append, List.mem_singleton, mem_kept_labels]
      constructor
      · rintro (h | rfl)
        · exact Or.inl h
        · exact Or.inr ⟨ha, rfl⟩
      · rintro (h | ⟨_, rfl⟩)
        · exact Or.inl h
        · exact Or.inr rfl

/-- Label-related configuration of the engine (`config.Config` fields used by
the label transitions). -/
structure LabelConfig where
  triggerLabels : List String := []
  inProgressLabel : String := ""
  needsInfoLabel : String := ""
  doneLabel : String := ""
deriving DecidableEq, Repr, Inhabited

/-- Step 8 of `handleIssue`: transition to in-progress.  The remove list is
`[DoneLabel, NeedsInfoLabel] ++ TriggerLabels`. -/
def labelsToInProgress (cfg : LabelConfig) (current : List String) : List String :=
  updateProgressLabels current cfg.inProgressLabel
    ([cfg.doneLabel, cfg.needsInfoLabel] ++ cfg.triggerLabels)

/-- Step 11 of `handleIssue` (non-proceed branch): transition to needs-info. -/
def labelsToNeedsInfo (cfg : LabelConfig) (current : List String) : List String :=
  updateProgressLabels current cfg.needsInfoLabel
    ([cfg.inProgressLabel, cfg.doneLabel] ++ cfg.triggerLabels)

/-- Step 18 of `handleIssue`: transition to done. -/
def labelsToDone (cfg : LabelConfig) (current : List String) : List String :=
  updateProgressLabels current cfg.doneLabel
    ([cfg.inProgressLabel, cfg.needsInfoLabel] ++ cfg.triggerLabels)

theorem not_mem_updateProgressLabels {current remove : List String} {add x : String}
    (hmem : x ∈ remove) (hne : x ≠ "") (hadd : x ≠ add) :
    x ∉ updateProgressLabels current add remove := by
  rw [mem_updateProgressLabels]
  rintro (⟨_, h | h⟩ | ⟨_, h⟩)
  · exact h hmem
  · exact hne h
  · exact hadd h

theorem add_mem_updateProgressLabels {current remove : List String} {add : String}
    (h : add ≠ "") : add ∈ updateProgressLabels current add remove :=
  mem_updateProgressLabels.mpr (Or.inr ⟨h, rfl⟩)

/-- C3: each of the three label transitions yields a set containing the target
status label, neither of the other two status labels, and no trigger label,
provided the three status labels and the trigger labels are non-empty and
pairwise distinct. -/
theorem c3_label_transitions (cfg : LabelConfig) (current : List String)
    (hin : cfg.inProgressLabel ≠ "") (hni : cfg.needsInfoLabel ≠ "")
    (hdn : cfg.doneLabel ≠ "")
    (h12 : cfg.inProgressLabel ≠ cfg.needsInfoLabel)
    (h13 : cfg.inProgressLabel ≠ cfg.doneLabel)
    (h23 : cfg.needsInfoLabel ≠ cfg.doneLabel)
    (htrig : ∀ t ∈ cfg.triggerLabels,
      t ≠ "" ∧ t ≠ cfg.inProgressLabel ∧ t ≠ cfg.needsInfoLabel ∧ t ≠ cfg.doneLabel) :
    (cfg.inProgressLabel ∈ labelsToInProgress cfg current ∧
      cfg.needsInfoLabel ∉ labelsToInProgress cfg current ∧
      cfg.doneLabel ∉ labelsToInProgress cfg current ∧
      ∀ t ∈ cfg.triggerLabels, t ∉ labelsToInProgress cfg current) ∧
    (cfg.needsInfoLabel ∈ labelsToNeedsInfo cfg current ∧
      cfg.inProgressLabel ∉ labelsToNeedsInfo cfg current ∧
      cfg.doneLabel ∉ labelsToNeedsInfo cfg current ∧
      ∀ t ∈ cfg.triggerLabels, t ∉ labelsToNeedsInfo cfg current) ∧
    (cfg.doneLabel ∈ labelsToDone cfg current ∧
      cfg.inProgressLabel ∉ labelsToDone cfg current ∧
      cfg.needsInfoLabel ∉ labelsToDone cfg current ∧
      ∀ t ∈ cfg.triggerLabels, t ∉ labelsToDone cfg current) := by
  refine ⟨⟨add_mem_updateProgressLabels hin, ?_, ?_, ?_⟩,
    ⟨add_mem_updateProgressLabels hni, ?_, ?_, ?_⟩,
    ⟨add_mem_updateProgressLabels hdn, ?_, ?_, ?_⟩⟩
  · exact not_mem_updateProgressLabels (by simp) hni (Ne.symm h12)
  · exact not_mem_updateProgressLabels (by simp) hdn (Ne.symm h13)
  · intro t ht
    exact not_mem_updateProgressLabels (by simp [ht]) (htrig t ht).1 (htrig t ht).2.1
  · exact not_mem_updateProgressLabels (by simp) hin h12
  · exact not_mem_updateProgressLabels (by simp) hdn (Ne.symm h23)
  · intro t ht
    exact not_mem_updateProgressLabels (by simp [ht]) (htrig t ht).1 (htrig t ht).2.2.1
  · exact not_mem_updateProgressLabels (by simp) hin h13
  · exact not_mem_updateProgressLabels (by simp) hni h23
  · intro t ht
    exact not_mem_updateProgressLabels (by simp [ht]) (htrig t ht).1 (htrig t ht).2.2.2

def c3cfg : LabelConfig :=
  { triggerLabels := ["ai-ready"], inProgressLabel := "ai-in-progress",
    needsInfoLabel := "ai-needs-info", doneLabel := "ai-done" }

theorem c3_witness :
    ("ai-in-progress" ∈ labelsToInProgress c3cfg ["ai-ready", "bug"] ∧
      "ai-needs-info" ∉ labelsToInProgress c3cfg ["ai-ready", "bug"] ∧
      "ai-done" ∉ labelsToInProgress c3cfg ["ai-ready", "bug"] ∧
      ∀ t ∈ c3cfg.triggerLabels, t ∉ labelsToInProgress c3cfg ["ai-ready", "bug"]) ∧
    ("ai-needs-info" ∈ labelsToNeedsInfo c3cfg ["ai-ready", "bug"] ∧
      "ai-in-progress" ∉ labelsToNeedsInfo c3cfg ["ai-ready", "bug"] ∧
      "ai-done" ∉ labelsToNeedsInfo c3cfg ["ai-ready", "bug"] ∧
      ∀ t ∈ c3cfg.triggerLabels, t ∉ labelsToNeedsInfo c3cfg ["ai-ready", "bug"]) ∧
    ("ai-done" ∈ labelsToDone c3cfg ["ai-ready", "bug"] ∧
      "ai-in-progress" ∉ labelsToDone c3cfg ["ai-ready", "bug"] ∧
      "ai-needs-info" ∉ labelsToDone c3cfg ["ai-ready", "bug"] ∧
      ∀ t ∈ c3cfg.triggerLabels, t ∉ labelsToDone c3cfg ["ai-ready", "bug"]) :=
  c3_label_transitions c3cfg ["ai-ready", "bug"] (by decide) (by decide) (by decide)
    (by decide) (by decide) (by decide) (by decide)

/-! ## The decision branch of handleIssue
(src/internal/service/workflow/engine.go, lines 448-552)

Steps 11-19 of `handleIssue` after a successful LLM run.  The external calls
(GitHub comments/labels/PR, git commit/push) are modelled by recording the
actions performed; the model assumes the recorded calls succeed — in Go a
failing call makes `handleIssue` return that call's error at that step, and
the label-set call in the non-proceed branch has its error discarded
(`_ = e.gh.SetIssueLabels(...)`). -/

def decisionProceed : String := "proceed"

def decisionNeedsInfo : String := "needs_info"

def decisionStop : String := "stop"

/-- `llm.Response` (src/pkg/llm/llm.go, lines 54-63).  The Go `Files` map is
modelled as an association list. -/
structure LLMResponse where
  decision : String := ""
  needsInfoComment : String := ""
  commitMessage : String := ""
  prTitle : String := ""
  prBody : String := ""
  patch : String := ""
  files : List (String × String) := []
  summary : String := ""
deriving DecidableEq, Repr, Inhabited

/-- `github.Comment` as used by the engine (`User`, `Body`). -/
structure GhComment where
  user : String := ""
  body : String := ""
deriving DecidableEq, Repr, Inhabited

/-- The fields of `github.Issue` used by `handleIssue`. -/
structure Issue where
  number : Int := 0
  title : String := ""
  body : String := ""
  author : String := ""
  labels : List String := []
deriving DecidableEq, Repr, Inhabited

/-- `fallback` (engine.go): use the default when the value trims to empty. -/
def fallback (value default_ : String) : String :=
  if value.trim == "" then default_ else value

/-- `mentionParticipants` (engine.go, lines 790-808).  The Go function joins a
string-keyed map in unspecified iteration order; this model fixes
first-occurrence order (author first, then commenters) with the same
membership. -/
def mentionParticipants (author : String) (comments : List GhComment) : String :=
  let users := (if author != "" then [author] else []) ++
    ((comments.filter fun c => c.user != "").map (·.user))
  let uniq := users.dedup
  if uniq.isEmpty then "" else String.intercalate " " (uniq.map fun u => "@" ++ u)

/-- External effects performed by the tail of `handleIssue`, in the order in which the
fields record them. -/
structure IssueActions where
  comments : List String := []
  labelSets : List (List String) := []
  commits : List String := []
  pushedBranches : List String := []
  prsCreated : List (String × String) := []
  assigneesAdded : List String := []
deriving DecidableEq, Repr, Inhabited

/-- Results of the external calls the proceed path consults:
`HasChanges` and the URL of the created PR. -/
structure EngineOracle where
  hasChanges : Bool := true
  prURL : String := ""
deriving DecidableEq, Repr, Inhabited

/-- Steps 11-19 of `handleIssue` (engine.go, lines 448-552), starting from the
LLM decision check.  `requireLabeler` is the flag distinguishing the
issue-label path from the issue-comment path; `branch` is the
`llm/issue-<n>-<ts>` branch created at step 7. -/
def handleIssueFromDecision (cfg : LabelConfig) (issue : Issue)
    (comments : List GhComment) (sender : String) (requireLabeler : Bool)
    (branch : String) (resp : LLMResponse) (oracle : EngineOracle) : IssueActions :=
  if resp.decision != decisionProceed then
    let comment0 := resp.needsInfoComment
    let comment1 := if comment0 == "" then resp.summary else comment0
    let comment2 :=
      if comment1 == "" then "More information is required before automation can proceed."
      else comment1
    let mentions := mentionParticipants issue.author comments
    let comment3 := if mentions != "" then comment2 ++ "\n\n" ++ mentions else comment2
    let labelSets :=
      if cfg.needsInfoLabel != "" then [labelsToNeedsInfo cfg issue.labels] else []
    { comments := [comment3], labelSets := labelSets }
  else if oracle.hasChanges = false then
    { comments := ["Automation completed but no file changes were made. " ++
        "The LLM indicated it would make changes but none were detected."] }
  else
    let commitMessage := fallback resp.commitMessage ("Resolve issue #" ++ toString issue.number)
    let prTitle := fallback resp.prTitle ("Resolve issue #" ++ toString issue.number)
    let prBody := fallback resp.prBody ("Resolves #" ++ toString issue.number)
    { comments := ["Automation completed. PR: " ++ oracle.prURL],
      labelSets := [labelsToDone cfg issue.labels],
      commits := [commitMessage],
      pushedBranches := [branch],
      prsCreated := [(prTitle, prBody)],
      assigneesAdded := if requireLabeler && sender != "" then [sender] else [] }

def c4cfg : LabelConfig :=
  { triggerLabels := ["ai-ready"], inProgressLabel := "ai-in-progress",
    needsInfoLabel := "ai-needs-info", doneLabel := "ai-done" }

def c4resp : LLMResponse := { decision := "stop", needsInfoComment := "N", summary := "S" }

def c4issue : Issue := { number := 12, author := "" }

/-- C4 (counterexample): on a `stop` outcome whose `needs_info_comment` is
"N" and whose summary is "S", the engine posts "N", not the summary "S"
(and the summary is non-empty, so the default-message clause does not
apply). -/
theorem c4_counterexample :
    (handleIssueFromDecision c4cfg c4issue [] "labeler" true "b" c4resp {}).comments = ["N"] ∧
      c4resp.summary = "S" ∧ ("N" : String) ≠ "S" := by decide

/-- C4 (amended): on a `stop` outcome the engine posts exactly one comment —
the needs-info comment when non-empty, else the summary, else the needs-info
default — with the @-mention list of participants appended when non-empty;
it transitions labels to needs-info when that label is configured; and it
performs no commit, no push, no PR creation and no assignee addition.
("Returns success" holds whenever the comment call itself succeeds.) -/
theorem c4_stop_posts_comment_only (cfg : LabelConfig) (issue : Issue)
    (comments : List GhComment) (sender : String) (requireLabeler : Bool)
    (branch : String) (resp : LLMResponse) (oracle : EngineOracle)
    (hstop : resp.decision = decisionStop) :
    (handleIssueFromDecision cfg issue comments sender requireLabeler branch resp
        oracle).comments =
      [(let base :=
          if resp.needsInfoComment ≠ "" then resp.needsInfoComment
          else if resp.summary ≠ "" then resp.summary
          else "More information is required before automation can proceed."
        let mentions := mentionParticipants issue.author comments
        if mentions ≠ "" then base ++ "\n\n" ++ mentions else base)] ∧
    (handleIssueFromDecision cfg issue comments sender requireLabeler branch resp
        oracle).labelSets =
      (if cfg.needsInfoLabel ≠ "" then [labelsToNeedsInfo cfg issue.labels] else []) ∧
    (handleIssueFromDecision cfg issue comments sender requireLabeler branch resp
        oracle).commits = [] ∧
    (handleIssueFromDecision cfg issue comments sender requireLabeler branch resp
        oracle).pushedBranches = [] ∧
    (handleIssueFromDecision cfg issue comments sender requireLabeler branch resp
        oracle).prsCreated = [] ∧
    (handleIssueFromDecision cfg issue comments sender requireLabeler branch resp
        oracle).assigneesAdded = [] := by
  have hne : (resp.decision != decisionProceed) = true := by
    rw [hstop]; decide
  unfold handleIssueFromDecision
  rw [if_pos hne]
  refine ⟨?_, ?_, rfl, rfl, rfl, rfl⟩
  · by_cases h0 : resp.needsInfoComment = ""
    · by_cases h1 : resp.summary = ""
      · simp [h0, h1]
      · simp [h0, h1]
    · simp [h0]
  · by_cases h2 : cfg.needsInfoLabel = ""
    · simp [h2]
    · simp [h2]

theorem c4_witness :
    (handleIssueFromDecision c4cfg c4issue [] "labeler" true "b" c4resp {}).comments =
      [(let base :=
          if c4resp.needsInfoComment ≠ "" then c4resp.needsInfoComment
          else if c4resp.summary ≠ "" then c4resp.summary
          else "More information is required before automation can proceed."
        let mentions := mentionParticipants c4issue.author []
        if mentions ≠ "" then base ++ "\n\n" ++ mentions else base)] ∧
    (handleIssueFromDecision c4cfg c4issue [] "labeler" true "b" c4resp {}).labelSets =
      (if c4cfg.needsInfoLabel ≠ "" then [labelsToNeedsInfo c4cfg c4issue.labels] else []) ∧
    (handleIssueFromDecision c4cfg c4issue [] "labeler" true "b" c4resp {}).commits = [] ∧
    (handleIssueFromDecision c4cfg c4issue [] "labeler" true "b" c4resp {}).pushedBranches = [] ∧
    (handleIssueFromDecision c4cfg c4issue [] "labeler" true "b" c4resp {}).prsCreated = [] ∧
    (handleIssueFromDecision c4cfg c4issue [] "labeler" true "b" c4resp {}).assigneesAdded = [] :=
  c4_stop_posts_comment_only c4cfg c4issue [] "labeler" true "b" c4resp {} (by decide)

/-! ## Git client: HasChanges / CommitAll (src/unnamed/part_006, lines 126-238)

Both functions run `git status --porcelain` and scan its output line by line
(`bufio.Scanner` splits on newlines); the model takes the list of lines as
input.  Go indexes lines by byte; the model indexes by character, which
agrees for the ASCII status prefix. -/

/-- `gitutil.ExcludedFiles` (a Go map used as a set). -/
def ExcludedFiles : List String :=
  ["context.json", "repo_instructions.md", "prompt.md", "llm_response.json",
   "llm_output.json", "run.log"]

/-- Go `strings.TrimSpace` (Unicode white space; the model trims the ASCII
whitespace recognised by `Char.isWhitespace`, which agrees on all characters
produced in porcelain output). -/
def goTrimSpace (s : String) : String :=
  String.mk (((s.data.dropWhile Char.isWhitespace).reverse.dropWhile Char.isWhitespace).reverse)

/-- Go `filepath.Base`: empty path gives ".", trailing slashes are removed,
an all-slash path gives "/", otherwise everything up to the last '/' is
dropped. -/
def goBase (p : String) : String :=
  if p == "" then "."
  else
    let cs := p.data.reverse.dropWhile (· == '/')
    if cs.isEmpty then "/"
    else String.mk (cs.takeWhile (· != '/')).reverse

/-- Index of the first occurrence of `pat` in a character list
(Go `strings.Index`). -/
def firstIndexOfChars (pat : List Char) : List Char → Option Nat
  | [] => if pat.isEmpty then some 0 else none
  | c :: rest =>
    if pat.isPrefixOf (c :: rest) then some 0
    else (firstIndexOfChars pat rest).map (· + 1)

/-- The filename extraction both `HasChanges` and `CommitAll` perform on one
porcelain line: skip lines shorter than 3 characters; take `line[3:]`,
trim space; for renames (`old -> new`) keep the part after the first " -> ". -/
def porcelainFilename (line : String) : Option String :=
  if line.length < 3 then none
  else
    let fn := goTrimSpace (String.mk (line.data.drop 3))
    let fn :=
      match firstIndexOfChars " -> ".data fn.data with
      | some idx => String.mk (fn.data.drop (idx + 4))
      | none => fn
    some fn

/-- The changed paths one `git status --porcelain` output reports, as both Go
functions read them. -/
def changedPaths (lines : List String) : List String :=
  lines.filterMap porcelainFilename

/-- `Client.HasChanges` (src/unnamed/part_006, lines 166-192): true iff some
status line names a file whose basename is not in the exclusion set. -/
def hasChangesPorcelain (lines : List String) : Bool :=
  lines.any fun line =>
    match porcelainFilename line with
    | some fn => !(ExcludedFiles.contains (goBase fn))
    | none => false

/-- The `filesToStage` list computed by `Client.CommitAll`
(src/unnamed/part_006, lines 197-229). -/
def commitAllFilesToStage (lines : List String) : List String :=
  lines.filterMap fun line =>
    match porcelainFilename line with
    | some fn => if ExcludedFiles.contains (goBase fn) then none else some fn
    | none => none

/-- Whether `CommitAll` reaches `git add`/`git commit`: it returns nil without
committing when `filesToStage` is empty. -/
def commitAllCreatesCommit (lines : List String) : Bool :=
  !(commitAllFilesToStage lines).isEmpty

/-- C5: `HasChanges` is true iff some reported changed path has a basename
outside the artifact exclusion set; `CommitAll` stages exactly the changed
paths whose basenames are outside that set, and creates no commit when every
changed path is excluded. -/
theorem c5_artifact_exclusion (lines : List String) :
    (hasChangesPorcelain lines = true ↔
      ∃ f ∈ changedPaths lines, goBase f ∉ ExcludedFiles) ∧
    commitAllFilesToStage lines =
      (changedPaths lines).filter (fun f => !(ExcludedFiles.contains (goBase f))) ∧
    (commitAllCreatesCommit lines = false ↔
      ∀ f ∈ changedPaths lines, goBase f ∈ ExcludedFiles) := by
  have haux : ∀ (x : Bool) (fn : String),
      (if x then (none : Option String) else some fn) = if !x then some fn else none := by
    intro x fn; cases x <;> rfl
  have hstage : commitAllFilesToStage lines =
      (changedPaths lines).filter (fun f => !(ExcludedFiles.contains (goBase f))) := by
    rw [changedPaths, List.filter_filterMap, commitAllFilesToStage]
    congr 1
    funext line
    cases h : porcelainFilename line with
    | none => simp [h, Option.filter]
    | some fn =>
      simp only [h, Option.filter]
      exact haux (ExcludedFiles.contains (goBase fn)) fn
  refine ⟨?_, hstage, ?_⟩
  · constructor
    · intro h
      rcases List.any_eq_true.mp h with ⟨line, hline, hmatch⟩
      cases h' : porcelainFilename line with
      | none => rw [h'] at hmatch; exact absurd hmatch (by simp)
      | some fn =>
        rw [h'] at hmatch
        refine ⟨fn, List.mem_filterMap.mpr ⟨line, hline, h'⟩, ?_⟩
        exact list_contains_eq_false_iff.mp (by simpa using hmatch)
    · rintro ⟨f, hf, hnx⟩
      rcases List.mem_filterMap.mp hf with ⟨line, hline, h'⟩
      refine List.any_eq_true.mpr ⟨line, hline, ?_⟩
      rw [h']
      simpa using list_contains_eq_false_iff.mpr hnx
  · rw [commitAllCreatesCommit, hstage]
    constructor
    · intro h f hf
      have hnil : ((changedPaths lines).filter
          (fun f => !(ExcludedFiles.contains (goBase f)))) = [] := by
        simpa [List.isEmpty_iff] using h
      by_contra hnot
      have : f ∈ (changedPaths lines).filter
          (fun f => !(ExcludedFiles.contains (goBase f))) :=
        List.mem_filter.mpr ⟨hf, by simpa using list_contains_eq_false_iff.mpr hnot⟩
      rw [hnil] at this
      exact absurd this (List.not_mem_nil f)
    · intro h
      have hnil : ((changedPaths lines).filter
          (fun f => !(ExcludedFiles.contains (goBase f)))) = [] := by
        apply List.filter_eq_nil_iff.mpr
        intro f hf
        simpa using list_contains_iff.mpr (h f hf)
      rw [hnil]
      rfl

/-- Scenario F of the spec, as a sanity check of the porcelain model: with
`README.md` and `outputs/llm_output.json` changed there are stageable changes
and only `README.md` is staged; with only the artifact changed there are
none. -/
theorem porcelain_scenario_f :
    hasChangesPorcelain [" M README.md", " M outputs/llm_output.json"] = true ∧
      commitAllFilesToStage [" M README.md", " M outputs/llm_output.json"] = ["README.md"] ∧
      hasChangesPorcelain [" M outputs/llm_output.json"] = false ∧
      commitAllCreatesCommit [" M outputs/llm_output.json"] = false := by decide

/-! ## Bash tool timeout (src/pkg/tools/builtin/bash.go, lines 43-118) -/

/-- `tools.ToolResult` (Content, IsError). -/
structure ToolResult where
  content : String := ""
  isError : Bool := false
deriving DecidableEq, Repr, Inhabited

/-- The effective timeout computed by `BashTool.Execute` (lines 58-68):
start from the context's `BashTimeout`; a requested timeout overrides it only
when positive; values above 300 become 300; values below 1 become 60 (not 1).
The wire value is a JSON number decoded as float64 and truncated by `int(t)`;
requests are modelled as integers (the input schema declares an integer). -/
def effectiveBashTimeout (ctxTimeout : Int) (requested : Option Int) : Int :=
  let t0 :=
    match requested with
    | some t => if t > 0 then t else ctxTimeout
    | none => ctxTimeout
  let t1 := if t0 > 300 then 300 else t0
  if t1 < 1 then 60 else t1

/-- The Tool Result built on the `context.DeadlineExceeded` branch of
`BashTool.Execute` (lines 100-106); `out` is the collected stdout/stderr. -/
def bashTimeoutResult (timeout : Int) (out : String) : ToolResult :=
  { content := "Command timed out after " ++ toString timeout ++ " seconds\n" ++ out,
    isError := true }

/-- C9 (counterexample): with the context default of 60 seconds, a requested
timeout of 0 is ignored and the effective timeout is 60, not the claimed
clamp of 0 into the range 1..300 (which would be 1). -/
theorem c9_counterexample :
    effectiveBashTimeout 60 (some 0) = 60 ∧
      max 1 (min 300 (0 : Int)) = 1 ∧ (60 : Int) ≠ 1 := by decide

/-- C9 (amended): the effective timeout always lies in 1..300; a positive
requested timeout is used, capped at 300; a non-positive requested timeout is
ignored in favour of the context value; the context value is capped at 300
above and replaced by 60 (not 1) below 1; and on expiry the tool returns an
error Result whose content contains "timed out" and the effective timeout
value. -/
theorem c9_timeout_clamp_and_result (ctxTimeout : Int) (requested : Option Int)
    (out : String) :
    (1 ≤ effectiveBashTimeout ctxTimeout requested ∧
      effectiveBashTimeout ctxTimeout requested ≤ 300) ∧
    (∀ t, requested = some t → 0 < t →
      effectiveBashTimeout ctxTimeout requested = if t > 300 then 300 else t) ∧
    (∀ t, requested = some t → t ≤ 0 →
      effectiveBashTimeout ctxTimeout requested = effectiveBashTimeout ctxTimeout none) ∧
    (requested = none →
      effectiveBashTimeout ctxTimeout requested =
        if ctxTimeout > 300 then 300 else if ctxTimeout < 1 then 60 else ctxTimeout) ∧
    (bashTimeoutResult (effectiveBashTimeout ctxTimeout requested) out).isError = true ∧
    ("timed out".data <:+:
      (bashTimeoutResult (effectiveBashTimeout ctxTimeout requested) out).content.data) ∧
    ((toString (effectiveBashTimeout ctxTimeout requested)).data <:+:
      (bashTimeoutResult (effectiveBashTimeout ctxTimeout requested) out).content.data) := by
  refine ⟨?_, ?_, ?_, ?_, rfl, ?_, ?_⟩
  · unfold effectiveBashTimeout
    rcases requested with _ | t <;> dsimp <;> split_ifs <;> omega
  · rintro t rfl ht
    unfold effectiveBashTimeout
    dsimp
    split_ifs <;> omega
  · rintro t rfl ht
    unfold effectiveBashTimeout
    dsimp
    split_ifs <;> omega
  · rintro rfl
    unfold effectiveBashTimeout
    dsimp
    split_ifs <;> omega
  · have h2 : (bashTimeoutResult (effectiveBashTimeout ctxTimeout requested) out).content.data =
        "Command timed out after ".data ++
          ((toString (effectiveBashTimeout ctxTimeout requested)).data ++
            (" seconds\n".data ++ out.data)) := by
      unfold bashTimeoutResult
      simp [String.data_append, List.append_assoc]
    have hto : "timed out".data <:+: "Command timed out after ".data := by decide
    rw [h2]
    exact hto.trans ⟨[], _, rfl⟩
  · have h2 : (bashTimeoutResult (effectiveBashTimeout ctxTimeout requested) out).content.data =
        "Command timed out after ".data ++
          ((toString (effectiveBashTimeout ctxTimeout requested)).data ++
            (" seconds\n".data ++ out.data)) := by
      unfold bashTimeoutResult
      simp [String.data_append, List.append_assoc]
    rw [h2]
    exact ⟨"Command timed out after ".data, " seconds\n".data ++ out.data,
      by simp [List.append_assoc]⟩

theorem c9_witness :
    ((1 ≤ effectiveBashTimeout 60 (some 0) ∧ effectiveBashTimeout 60 (some 0) ≤ 300) ∧
      (∀ t, (some 0 : Option Int) = some t → 0 < t →
        effectiveBashTimeout 60 (some 0) = if t > 300 then 300 else t) ∧
      (∀ t, (some 0 : Option Int) = some t → t ≤ 0 →
        effectiveBashTimeout 60 (some 0) = effectiveBashTimeout 60 none) ∧
      ((some 0 : Option Int) = none →
        effectiveBashTimeout 60 (some 0) =
          if (60 : Int) > 300 then 300 else if (60 : Int) < 1 then 60 else 60) ∧
      (bashTimeoutResult (effectiveBashTimeout 60 (some 0)) "x").isError = true ∧
      ("timed out".data <:+:
        (bashTimeoutResult (effectiveBashTimeout 60 (some 0)) "x").content.data) ∧
      ((toString (effectiveBashTimeout 60 (some 0))).data <:+:
        (bashTimeoutResult (effectiveBashTimeout 60 (some 0)) "x").content.data)) :=
  c9_timeout_clamp_and_result 60 (some 0) "x"

/-! ## ToolContext.ValidatePath (src/unnamed/part_009, lines 113-148)

Go `path/filepath` on Unix manipulates slash-separated strings.
`filepath.Clean` is equivalent to: split on '/', drop empty and "."
components, process ".." components (an absolute path drops a leading "..",
a relative path keeps it), and re-render.  The model computes those component
lists directly and re-renders only where the Go code produces a string.
`filepath.Abs` consults the process working directory, passed here as the
component list `cwd` of an absolute directory.  `filepath.Rel` on two cleaned
absolute paths strips the common component prefix and emits one ".." per
remaining base component followed by the remaining target components ("."
when empty); it fails when exactly one of its arguments is absolute, which
`ValidatePath` maps to ErrPathOutsideWorkDir. -/

/-- Go `strings.HasPrefix(path, "/")`, i.e. `filepath.IsAbs` on Unix. -/
def goIsAbs (s : String) : Bool :=
  match s.data with
  | '/' :: _ => true
  | _ => false

/-- Split a character list on '/'. -/
def splitSlashAux (acc : List Char) : List Char → List (List Char)
  | [] => [acc.reverse]
  | c :: rest =>
    if c = '/' then acc.reverse :: splitSlashAux [] rest
    else splitSlashAux (c :: acc) rest

/-- The slash-separated components of a path string, with empty and "."
components dropped (the preprocessing step of `filepath.Clean`). -/
def pathComps (s : String) : List String :=
  ((splitSlashAux [] s.data).map String.mk).filter fun c => c != "" && c != "."

/-- One step of `filepath.Clean`'s ".." processing. -/
def cleanStep (abs : Bool) (acc : List String) (c : String) : List String :=
  if c = ".." then
    match acc.getLast? with
    | some l => if l = ".." then acc ++ [".."] else acc.dropLast
    | none => if abs then [] else [".."]
  else acc ++ [c]

/-- The component list of `filepath.Clean` applied to a path with the given
absolute flag and raw components. -/
def cleanComps (abs : Bool) (cs : List String) : List String :=
  cs.foldl (cleanStep abs) []

def joinComps (cs : List String) : String := String.intercalate "/" cs

/-- Render a cleaned component list back into the path string `Clean`
returns. -/
def renderPath (abs : Bool) (cs : List String) : String :=
  if abs then "/" ++ joinComps cs
  else if cs.isEmpty then "." else joinComps cs

/-- The component list of `filepath.Rel(base, target)` for two cleaned paths
with equal absolute flags. -/
def relComps : List String → List String → List String
  | [], t => t
  | b, [] => List.replicate b.length ".."
  | x :: bs, y :: ts =>
    if x = y then relComps bs ts
    else List.replicate (bs.length + 1) ".." ++ (y :: ts)

/-- `strings.HasPrefix(rel, "..")` evaluated on the rendering of a relative
component list: the rendering is "." for `[]` (no ".." prefix) and otherwise
starts with its first component followed by '/' or end-of-string, so the
check holds exactly when the first component's first two characters are
"..". -/
def relStartsWithDotDot (cs : List String) : Bool :=
  match cs with
  | [] => false
  | c :: _ => c.data.take 2 == ['.', '.']

inductive ToolError where
  | noWorkDir
  | pathOutsideWorkDir
deriving DecidableEq, Repr, Inhabited

instance : DecidableEq (Except ToolError String) := fun a b =>
  match a, b with
  | .ok x, .ok y => if h : x = y then .isTrue (by rw [h]) else .isFalse (by simp [h])
  | .error x, .error y => if h : x = y then .isTrue (by rw [h]) else .isFalse (by simp [h])
  | .ok _, .error _ => .isFalse (by simp)
  | .error _, .ok _ => .isFalse (by simp)

/-- `ToolContext.ValidatePath` (src/unnamed/part_009, lines 113-148):
empty work dir is `ErrNoWorkDir`; absolute paths are cleaned, relative paths
are joined onto `WorkDir` and cleaned; the work dir is made absolute (against
`cwd`) and cleaned; a `filepath.Rel` failure or a relative result starting
with ".." is `ErrPathOutsideWorkDir`; otherwise the cleaned absolute path is
returned. -/
def validatePath (cwd : List String) (workDir path : String) : Except ToolError String :=
  if workDir == "" then .error .noWorkDir
  else
    let absFlag := if goIsAbs path then true else goIsAbs workDir
    let absComps :=
      if goIsAbs path then cleanComps true (pathComps path)
      else cleanComps (goIsAbs workDir) (pathComps workDir ++ pathComps path)
    let workAbsComps :=
      if goIsAbs workDir then cleanComps true (pathComps workDir)
      else cleanComps true (cwd ++ pathComps workDir)
    if absFlag = false then .error .pathOutsideWorkDir
    else if relStartsWithDotDot (relComps workAbsComps absComps) then
      .error .pathOutsideWorkDir
    else .ok (renderPath true absComps)

/-- The canonicalization of a caller-supplied path against the workspace
root: `Clean(path)` when absolute, `Clean(Join(WorkDir, path))` otherwise
(as component lists; `Join` concatenates the raw components). -/
def canonPathComps (workDir path : String) : List String :=
  if goIsAbs path then cleanComps true (pathComps path)
  else cleanComps (goIsAbs workDir) (pathComps workDir ++ pathComps path)

/-- The cleaned workspace root. -/
def rootComps (workDir : String) : List String :=
  cleanComps true (pathComps workDir)

theorem relComps_of_ancestor {b t : List String} (h : b <+: t) :
    relComps b t = t.drop b.length := by
  induction b generalizing t with
  | nil => simp [relComps]
  | cons x bs ih =>
    cases t with
    | nil =>
      rcases h with ⟨r, hr⟩
      exact absurd hr (by simp)
    | cons y ts =>
      rcases List.cons_prefix_cons.mp h with ⟨rfl, h2⟩
      simp [relComps, ih h2]

theorem relComps_head_of_not_prefix {b t : List String} (h : ¬ b <+: t) :
    ∃ rest, relComps b t = ".." :: rest := by
  induction b generalizing t with
  | nil => exact absurd (List.nil_prefix) h
  | cons x bs ih =>
    cases t with
    | nil =>
      refine ⟨List.replicate bs.length "..", ?_⟩
      simp [relComps, List.replicate_succ]
    | cons y ts =>
      by_cases hxy : x = y
      · subst hxy
        have h2 : ¬ bs <+: ts := fun hp => h (List.cons_prefix_cons.mpr ⟨rfl, hp⟩)
        simpa [relComps] using ih h2
      · refine ⟨List.replicate bs.length ".." ++ (y :: ts), ?_⟩
        simp [relComps, hxy, List.replicate_succ]

/-- C2 (amended): for every absolute workspace root, `ValidatePath` accepts a
path and returns its cleaned absolute form iff the path's canonicalization is
the root or a descendant of it *whose first component below the root does not
itself begin with the two characters ".."*; every rejected path fails with
the path-outside-work-dir error. -/
theorem c2_validate_iff (cwd : List String) (workDir path : String)
    (hw : goIsAbs workDir = true) :
    (validatePath cwd workDir path = .ok (renderPath true (canonPathComps workDir path)) ↔
      (rootComps workDir <+: canonPathComps workDir path ∧
        relStartsWithDotDot
          ((canonPathComps workDir path).drop (rootComps workDir).length) = false)) ∧
    (¬ (rootComps workDir <+: canonPathComps workDir path ∧
        relStartsWithDotDot
          ((canonPathComps workDir path).drop (rootComps workDir).length) = false) →
      validatePath cwd workDir path = .error .pathOutsideWorkDir) := by
  have hne : (workDir == "") = false := by
    rcases hww : workDir == "" with _ | _
    · rfl
    · exfalso
      have : workDir = "" := by simpa using hww
      rw [this] at hw
      simp [goIsAbs] at hw
  have habs : (if goIsAbs path then true else goIsAbs workDir) = true := by
    rcases hp : goIsAbs path with _ | _
    · simpa [hp] using hw
    · simp [hp]
  have hval : validatePath cwd workDir path =
      (if relStartsWithDotDot (relComps (rootComps workDir)
          (canonPathComps workDir path)) then
        Except.error ToolError.pathOutsideWorkDir
      else Except.ok (renderPath true (canonPathComps workDir path))) := by
    unfold validatePath canonPathComps rootComps
    rw [hne]
    dsimp only
    rw [habs, hw]
    simp
  have hcheck : relStartsWithDotDot (relComps (rootComps workDir)
      (canonPathComps workDir path)) = false ↔
      (rootComps workDir <+: canonPathComps workDir path ∧
        relStartsWithDotDot
          ((canonPathComps workDir path).drop (rootComps workDir).length) = false) := by
    by_cases hpre : rootComps workDir <+: canonPathComps workDir path
    · rw [relComps_of_ancestor hpre]
      exact ⟨fun h => ⟨hpre, h⟩, fun h => h.2⟩
    · obtain ⟨rest, hr⟩ := relComps_head_of_not_prefix hpre
      rw [hr]
      constructor
      · intro h
        exact absurd h (by simp [relStartsWithDotDot])
      · intro h
        exact absurd h.1 hpre
  constructor
  · rw [hval]
    constructor
    · intro h
      by_cases hc : relStartsWithDotDot (relComps (rootComps workDir)
          (canonPathComps workDir path))
      · rw [if_pos hc] at h
        exact absurd h (by simp)
      · exact hcheck.mp (by simpa using hc)
    · intro h
      rw [if_neg (by rw [hcheck.mpr h]; simp)]
  · intro h
    rw [hval]
    rw [if_pos ?_]
    by_contra hc
    exact h (hcheck.mp (by simpa using hc))

/-- C2 (counterexample): with workspace root "/w", the in-workspace relative
path "..a" canonicalizes to "/w/..a", a descendant of the root, yet
`ValidatePath` rejects it with the path-outside-work-dir error because the
computed relative path "..a" merely *starts with* the two characters "..". -/
theorem c2_counterexample :
    validatePath [] "/w" "..a" = .error .pathOutsideWorkDir ∧
      rootComps "/w" <+: canonPathComps "/w" "..a" := by decide

theorem c2_witness :
    ((validatePath [] "/w" "a/b" = .ok (renderPath true (canonPathComps "/w" "a/b")) ↔
      (rootComps "/w" <+: canonPathComps "/w" "a/b" ∧
        relStartsWithDotDot
          ((canonPathComps "/w" "a/b").drop (rootComps "/w").length) = false)) ∧
    (¬ (rootComps "/w" <+: canonPathComps "/w" "a/b" ∧
        relStartsWithDotDot
          ((canonPathComps "/w" "a/b").drop (rootComps "/w").length) = false) →
      validatePath [] "/w" "a/b" = .error .pathOutsideWorkDir)) :=
  c2_validate_iff [] "/w" "a/b" (by decide)


/-!
## C8: token injection and redaction in remote URLs (git.go, net/url)

`injectToken` parses a remote URL with a faithful embedding of the parts of
Go's `net/url.Parse` exercised by git-sonic (scheme detection, fragment and
query splitting, authority/userinfo/host parsing, percent-unescaping) and
re-renders it through `goURLString`, an embedding of `URL.String`, with the
userinfo replaced by `x-access-token:<token>`; `RedactToken` re-parses and
drops the password.  Machine text is modelled at the level of `Char` lists;
Go strings are byte strings, and the byte/rune distinction is noted where it
matters (percent-escaping works on UTF-8 bytes via `utf8Bytes`).
-/


theorem char_toNat_ofNat {n : Nat} (h : n.isValidChar) : (Char.ofNat n).toNat = n := by
  unfold Char.ofNat
  rw [dif_pos h]
  rfl

def isCTLCode (n : Nat) : Bool := decide (n < 32) || decide (n = 127)

def isAlphaCode (n : Nat) : Bool :=
  (decide (65 ≤ n) && decide (n ≤ 90)) || (decide (97 ≤ n) && decide (n ≤ 122))

def isDigitCode (n : Nat) : Bool := decide (48 ≤ n) && decide (n ≤ 57)

def isHexDigit (c : Char) : Bool :=
  isDigitCode c.toNat || (decide (65 ≤ c.toNat) && decide (c.toNat ≤ 70)) ||
    (decide (97 ≤ c.toNat) && decide (c.toNat ≤ 102))

def hexVal (c : Char) : Nat :=
  if isDigitCode c.toNat then c.toNat - 48
  else if decide (97 ≤ c.toNat) then c.toNat - 87
  else c.toNat - 55

def cutFirst (sep : Char) : List Char → Option (List Char × List Char)
  | [] => none
  | c :: rest =>
    if c = sep then some ([], rest)
    else (cutFirst sep rest).map fun p => (c :: p.1, p.2)

def cutLast (sep : Char) (l : List Char) : Option (List Char × List Char) :=
  (cutFirst sep l.reverse).map fun p => (p.2.reverse, p.1.reverse)

theorem cutFirst_eq_none {sep : Char} {l : List Char} (h : sep ∉ l) :
    cutFirst sep l = none := by
  induction l with
  | nil => rfl
  | cons c rest ih =>
    rw [List.mem_cons, not_or] at h
    unfold cutFirst
    rw [if_neg (fun e => h.1 e.symm), ih h.2]
    rfl

theorem cutFirst_append {sep : Char} {a b : List Char} (h : sep ∉ a) :
    cutFirst sep (a ++ sep :: b) = some (a, b) := by
  induction a with
  | nil => simp [cutFirst]
  | cons c rest ih =>
    rw [List.mem_cons, not_or] at h
    rw [List.cons_append]
    unfold cutFirst
    rw [if_neg (fun e => h.1 e.symm), ih h.2]
    rfl

theorem cutFirst_eq_some {sep : Char} {l a b : List Char}
    (h : cutFirst sep l = some (a, b)) : l = a ++ sep :: b ∧ sep ∉ a := by
  induction l generalizing a b with
  | nil => simp [cutFirst] at h
  | cons c rest ih =>
    unfold cutFirst at h
    by_cases hc : c = sep
    · rw [if_pos hc] at h
      simp only [Option.some.injEq, Prod.mk.injEq] at h
      obtain ⟨ha, hb⟩ := h
      subst hc
      rw [← ha, ← hb]
      simp
    · rw [if_neg hc] at h
      cases hcf : cutFirst sep rest with
      | none => rw [hcf] at h; simp at h
      | some p =>
        rw [hcf] at h
        simp only [Option.map_some', Option.some.injEq] at h
        rw [Prod.ext_iff] at h
        obtain ⟨ha, hb⟩ := h
        dsimp at ha hb
        obtain ⟨hl, hnm⟩ := ih (a := p.1) (b := p.2) (by rw [hcf])
        subst ha
        subst hb
        constructor
        · rw [List.cons_append, hl]
        · rw [List.mem_cons, not_or]
          exact ⟨fun e => hc e.symm, hnm⟩

theorem cutLast_eq_none {sep : Char} {l : List Char} (h : sep ∉ l) :
    cutLast sep l = none := by
  unfold cutLast
  rw [cutFirst_eq_none (by simpa using h)]
  rfl

theorem cutLast_append {sep : Char} {a b : List Char} (h : sep ∉ b) :
    cutLast sep (a ++ sep :: b) = some (a, b) := by
  unfold cutLast
  rw [show (a ++ sep :: b).reverse = b.reverse ++ sep :: a.reverse from by simp]
  rw [cutFirst_append (by simpa using h)]
  simp

theorem cutLast_eq_some {sep : Char} {l a b : List Char}
    (h : cutLast sep l = some (a, b)) : l = a ++ sep :: b ∧ sep ∉ b := by
  unfold cutLast at h
  cases hcf : cutFirst sep l.reverse with
  | none => rw [hcf] at h; simp at h
  | some p =>
    rw [hcf] at h
    simp only [Option.map_some', Option.some.injEq] at h
    rw [Prod.ext_iff] at h
    obtain ⟨ha, hb⟩ := h
    dsimp at ha hb
    obtain ⟨hl, hnm⟩ := cutFirst_eq_some hcf
    subst ha
    subst hb
    constructor
    · have h2 := congrArg List.reverse hl
      simpa using h2
    · simpa using hnm

def isSchemeChar (c : Char) : Bool :=
  isAlphaCode c.toNat || isDigitCode c.toNat || c == '+' || c == '-' || c == '.'

def findScheme : List Char → List Char → Bool → Except Unit (Option (List Char × List Char))
  | _, [], _ => .ok none
  | seen, c :: cs, isFirst =>
    if isAlphaCode c.toNat then findScheme (c :: seen) cs false
    else if isDigitCode c.toNat || c == '+' || c == '-' || c == '.' then
      if isFirst then .ok none else findScheme (c :: seen) cs false
    else if c == ':' then
      if isFirst then .error () else .ok (some (seen.reverse, cs))
    else .ok none


theorem findScheme_cons (seen : List Char) (c : Char) (cs : List Char) (isFirst : Bool) :
    findScheme seen (c :: cs) isFirst =
      if isAlphaCode c.toNat then findScheme (c :: seen) cs false
      else if isDigitCode c.toNat || c == '+' || c == '-' || c == '.' then
        if isFirst then .ok none else findScheme (c :: seen) cs false
      else if c == ':' then
        if isFirst then .error () else .ok (some (seen.reverse, cs))
      else .ok none := rfl

theorem findScheme_append {sc : List Char} (h : ∀ c ∈ sc, isSchemeChar c = true) :
    ∀ (seen rest : List Char),
      findScheme seen (sc ++ ':' :: rest) false = .ok (some (seen.reverse ++ sc, rest)) := by
  induction sc with
  | nil =>
    intro seen rest
    rw [List.nil_append]
    rw [findScheme_cons]
    rw [if_neg (by decide), if_neg (by decide), if_pos (by decide), if_neg (by decide)]
    simp
  | cons c cs ih =>
    intro seen rest
    have hc := h c (by simp)
    have hcs : ∀ d ∈ cs, isSchemeChar d = true := fun d hd => h d (by simp [hd])
    rw [List.cons_append]
    rw [findScheme_cons]
    by_cases ha : isAlphaCode c.toNat = true
    · rw [if_pos ha, ih hcs (c :: seen) rest]
      simp
    · have hd : (isDigitCode c.toNat || c == '+' || c == '-' || c == '.') = true := by
        unfold isSchemeChar at hc
        have ha' : isAlphaCode c.toNat = false := by simpa using ha
        simp only [ha', Bool.false_or] at hc
        simpa [Bool.or_assoc] using hc
      rw [if_neg ha, if_pos hd, if_neg (by decide), ih hcs (c :: seen) rest]
      simp

theorem findScheme_complete {c : Char} {cs rest : List Char}
    (hc : isAlphaCode c.toNat = true) (hcs : ∀ d ∈ cs, isSchemeChar d = true) :
    findScheme [] (c :: (cs ++ ':' :: rest)) true = .ok (some (c :: cs, rest)) := by
  rw [findScheme_cons]
  rw [if_pos hc, findScheme_append hcs [c] rest]
  simp

theorem findScheme_slash (cs : List Char) :
    findScheme [] ('/' :: cs) true = .ok none := by
  rw [findScheme_cons]
  rw [if_neg (by decide), if_neg (by decide), if_neg (by decide)]

theorem findScheme_sound {l : List Char} :
    ∀ {seen : List Char} {isFirst : Bool} {out rest : List Char},
      findScheme seen l isFirst = .ok (some (out, rest)) →
      ∃ pre, out = seen.reverse ++ pre ∧ l = pre ++ ':' :: rest ∧
        (∀ c ∈ pre, isSchemeChar c = true) ∧
        (isFirst = true → ∃ c cs, pre = c :: cs ∧ isAlphaCode c.toNat = true) := by
  induction l with
  | nil => intro seen isFirst out rest h; simp [findScheme] at h
  | cons c cs ih =>
    intro seen isFirst out rest h
    rw [findScheme_cons] at h
    by_cases ha : isAlphaCode c.toNat = true
    · rw [if_pos ha] at h
      obtain ⟨pre, hout, hl, hpre, _⟩ := ih h
      refine ⟨c :: pre, ?_, ?_, ?_, ?_⟩
      · rw [hout]; simp
      · rw [List.cons_append, hl]
      · intro d hd
        rcases List.mem_cons.mp hd with rfl | hd2
        · unfold isSchemeChar; simp [ha]
        · exact hpre d hd2
      · intro _; exact ⟨c, pre, rfl, ha⟩
    · rw [if_neg ha] at h
      by_cases hd : (isDigitCode c.toNat || c == '+' || c == '-' || c == '.') = true
      · rw [if_pos hd] at h
        cases hif : isFirst with
        | true => rw [hif] at h; simp at h
        | false =>
          rw [hif] at h
          rw [if_neg (by decide)] at h
          obtain ⟨pre, hout, hl, hpre, _⟩ := ih h
          refine ⟨c :: pre, ?_, ?_, ?_, ?_⟩
          · rw [hout]; simp
          · rw [List.cons_append, hl]
          · intro d hd2
            rcases List.mem_cons.mp hd2 with rfl | hd3
            · unfold isSchemeChar
              have ha' : isAlphaCode d.toNat = false := by simpa using ha
              simp [ha', Bool.or_assoc]
              simpa [Bool.or_assoc] using hd
            · exact hpre d hd3
          · intro hcontr; exact absurd (hif ▸ hcontr) (by simp [hif])
      · rw [if_neg hd] at h
        by_cases hcol : (c == ':') = true
        · rw [if_pos hcol] at h
          cases hif : isFirst with
          | true => rw [hif] at h; simp at h
          | false =>
            rw [hif] at h
            rw [if_neg (by decide)] at h
            simp only [Except.ok.injEq, Option.some.injEq, Prod.mk.injEq] at h
            obtain ⟨hout, hrest⟩ := h
            refine ⟨[], ?_, ?_, ?_, ?_⟩
            · rw [← hout]; simp
            · have : c = ':' := by simpa using hcol
              rw [this, ← hrest]
              rfl
            · intro d hd2; simp at hd2
            · intro hcontr; simp [hif] at hcontr
        · rw [if_neg hcol] at h
          simp at h

def unescapePercent : List Char → Option (List Char)
  | [] => some []
  | c :: rest =>
    if c = '%' then
      match rest with
      | a :: b :: rest2 =>
        if isHexDigit a && isHexDigit b then
          (unescapePercent rest2).map fun r => Char.ofNat (16 * hexVal a + hexVal b) :: r
        else none
      | _ => none
    else (unescapePercent rest).map fun r => c :: r

def utf8Bytes (n : Nat) : List Nat :=
  if n < 128 then [n]
  else if n < 2048 then [192 + n / 64, 128 + n % 64]
  else if n < 65536 then [224 + n / 4096, 128 + (n / 64) % 64, 128 + n % 64]
  else [240 + n / 262144, 128 + (n / 4096) % 64, 128 + (n / 64) % 64, 128 + n % 64]

def upperHexDigit (n : Nat) : Char := Char.ofNat (if n < 10 then 48 + n else 55 + n)

def keepUserPassword (b : Nat) : Bool :=
  isAlphaCode b || isDigitCode b || [45, 95, 46, 126, 36, 38, 43, 44, 59, 61].contains b

def escapeBytes (bs : List Nat) : List Char :=
  bs.flatMap fun b =>
    if keepUserPassword b then [Char.ofNat b]
    else ['%', upperHexDigit (b / 16), upperHexDigit (b % 16)]

def escapeUserPassword (s : String) : String :=
  String.mk (escapeBytes (s.data.flatMap fun c => utf8Bytes c.toNat))

def validUserinfoChar (c : Char) : Bool :=
  isAlphaCode c.toNat || isDigitCode c.toNat ||
    [45, 46, 95, 58, 126, 33, 36, 38, 39, 40, 41, 42, 43, 44, 59, 61, 37, 64].contains c.toNat

def validUserinfo (l : List Char) : Bool := l.all validUserinfoChar

def parseHost (host : List Char) : Option String :=
  if host.contains '[' || host.contains ']' || host.contains '%' then none
  else
    match cutLast ':' host with
    | some (_, port) =>
      if port.all (fun c => isDigitCode c.toNat) then some (String.mk host) else none
    | none => some (String.mk host)

def parseAuthority (authority : List Char) :
    Option (Option (String × Option String) × String) :=
  match cutLast '@' authority with
  | none => (parseHost authority).map fun h => ((none : Option (String × Option String)), h)
  | some (userinfo, hostpart) =>
    if validUserinfo userinfo then
      let userOpt :=
        match cutFirst ':' userinfo with
        | none => (unescapePercent userinfo).map fun uu => (String.mk uu, (none : Option String))
        | some (uu, pp) =>
          match unescapePercent uu, unescapePercent pp with
          | some u2, some p2 => some (String.mk u2, some (String.mk p2))
          | _, _ => none
      match userOpt, parseHost hostpart with
      | some us, some h => some (some us, h)
      | _, _ => none
    else none

structure GoURL where
  scheme : String := ""
  opaquePart : String := ""
  user : Option (String × Option String) := none
  host : String := ""
  path : String := ""
  forceQuery : Bool := false
  rawQuery : String := ""
  fragment : String := ""
deriving DecidableEq, Repr, Inhabited

def splitQuery (rest1 : List Char) : List Char × Bool × List Char :=
  if rest1.getLast? == some '?' && !(rest1.dropLast.contains '?') then
    (rest1.dropLast, true, [])
  else
    match cutFirst '?' rest1 with
    | some (b, q) => (b, false, q)
    | none => (rest1, false, [])

def goURLParse (s : String) : Option GoURL :=
  let cs := s.data
  if cs.any (fun c => isCTLCode c.toNat) then none
  else
    let p0 :=
      match cutFirst '#' cs with
      | some (b, f) => (b, f)
      | none => (cs, [])
    match findScheme [] p0.1 true with
    | .error _ => none
    | .ok schemeOpt =>
      let p1 :=
        match schemeOpt with
        | some (sc, r) => (sc.map Char.toLower, r)
        | none => (([] : List Char), p0.1)
      let scheme := p1.1
      let q := splitQuery p1.2
      let rest2 := q.1
      if (rest2.head? == some '/') = false then
        if !scheme.isEmpty then
          some { scheme := String.mk scheme, opaquePart := String.mk rest2,
                 forceQuery := q.2.1, rawQuery := String.mk q.2.2,
                 fragment := String.mk p0.2 }
        else
          let segment := match cutFirst '/' rest2 with | some (a, _) => a | none => rest2
          if segment.contains ':' then none
          else
            some { path := String.mk rest2, forceQuery := q.2.1,
                   rawQuery := String.mk q.2.2, fragment := String.mk p0.2 }
      else
        if (!scheme.isEmpty || !(rest2.take 3 == ['/', '/', '/'])) &&
            (rest2.take 2 == ['/', '/']) then
          let after2 := rest2.drop 2
          let pa :=
            match cutFirst '/' after2 with
            | some (a, r) => (a, '/' :: r)
            | none => (after2, ([] : List Char))
          match parseAuthority pa.1 with
          | none => none
          | some (us, h) =>
            some { scheme := String.mk scheme, user := us, host := h,
                   path := String.mk pa.2, forceQuery := q.2.1,
                   rawQuery := String.mk q.2.2, fragment := String.mk p0.2 }
        else
          some { scheme := String.mk scheme, path := String.mk rest2,
                 forceQuery := q.2.1, rawQuery := String.mk q.2.2,
                 fragment := String.mk p0.2 }

def userinfoString (ui : String × Option String) : String :=
  escapeUserPassword ui.1 ++
    (match ui.2 with | some p => ":" ++ escapeUserPassword p | none => "")

def goURLString (u : GoURL) : String :=
  (if u.scheme ≠ "" then u.scheme ++ ":" else "") ++
    (if u.opaquePart ≠ "" then u.opaquePart
     else
       (if u.scheme ≠ "" ∨ u.host ≠ "" ∨ u.user.isSome then
          "//" ++ (match u.user with | some ui => userinfoString ui ++ "@" | none => "") ++
            u.host
        else "") ++
       (if u.path ≠ "" ∧ u.path.data.head? ≠ some '/' ∧ u.host ≠ "" then "/" else "") ++
       u.path) ++
    (if u.forceQuery ∨ u.rawQuery ≠ "" then "?" ++ u.rawQuery else "") ++
    (if u.fragment ≠ "" then "#" ++ u.fragment else "")

def injectToken (rawURL token : String) : Option String :=
  (goURLParse rawURL).map fun u =>
    goURLString { u with user := some ("x-access-token", some token) }

def RedactToken (rawURL : String) : String :=
  match goURLParse rawURL with
  | none => rawURL
  | some u =>
    if u.user.isSome then goURLString { u with user := some ("x-access-token", none) }
    else goURLString u

/-! ### character lemmas -/

def isLowerSafe (c : Char) : Bool := !(decide (65 ≤ c.toNat) && decide (c.toNat ≤ 90))

theorem toLower_toNat (c : Char) :
    (c.toLower).toNat = if 65 ≤ c.toNat ∧ c.toNat ≤ 90 then c.toNat + 32 else c.toNat := by
  unfold Char.toLower
  dsimp only
  by_cases h : c.toNat ≥ 65 ∧ c.toNat ≤ 90
  · rw [if_pos h, if_pos ⟨h.1, h.2⟩]
    exact char_toNat_ofNat (Or.inl (by omega))
  · rw [if_neg h, if_neg (fun hh => h ⟨hh.1, hh.2⟩)]

theorem toLower_eq_of_lower_safe {c : Char} (h : isLowerSafe c = true) : c.toLower = c := by
  unfold Char.toLower
  dsimp only
  rw [if_neg]
  unfold isLowerSafe at h
  intro hh
  simp only [Bool.not_eq_true', Bool.and_eq_false_iff, decide_eq_false_iff_not, not_le] at h
  omega

theorem char_ne_of_toNat_ne {c d : Char} (h : c.toNat ≠ d.toNat) : c ≠ d :=
  fun e => h (by rw [e])

theorem char_beq_eq_false_of_toNat_ne {c d : Char} (h : c.toNat ≠ d.toNat) :
    (c == d) = false :=
  beq_eq_false_iff_ne.mpr (char_ne_of_toNat_ne h)

theorem char_toNat_lt (c : Char) : c.toNat < 1114112 := by
  have h := c.valid
  unfold Char.toNat
  rcases h with h | ⟨h1, h2⟩ <;> omega

/-! ### escaping lemmas -/

theorem keepUserPassword_iff {b : Nat} :
    keepUserPassword b = true ↔
      ((65 ≤ b ∧ b ≤ 90) ∨ (97 ≤ b ∧ b ≤ 122) ∨ (48 ≤ b ∧ b ≤ 57) ∨
        b = 45 ∨ b = 95 ∨ b = 46 ∨ b = 126 ∨ b = 36 ∨ b = 38 ∨ b = 43 ∨
        b = 44 ∨ b = 59 ∨ b = 61) := by
  unfold keepUserPassword isAlphaCode isDigitCode
  simp [List.contains]
  tauto

def userinfoSafe (c : Char) : Bool :=
  validUserinfoChar c && !(c == '@') && !(c == '/') && !(c == '?') && !(c == '#') &&
    !(c == ':') && !(isCTLCode c.toNat)

theorem hexChar_safe {n : Nat} (h : n < 16) :
    userinfoSafe (upperHexDigit n) = true ∧ isHexDigit (upperHexDigit n) = true ∧
      upperHexDigit n ≠ '%' := by
  interval_cases n <;> decide

theorem utf8Bytes_lt_256 {n : Nat} (h : n < 1114112) : ∀ b ∈ utf8Bytes n, b < 256 := by
  intro b hb
  unfold utf8Bytes at hb
  split_ifs at hb with h1 h2 h3
  · simp at hb; omega
  · simp at hb; rcases hb with rfl | rfl <;> omega
  · simp at hb; rcases hb with rfl | rfl | rfl <;> omega
  · simp at hb; rcases hb with rfl | rfl | rfl | rfl <;> omega

theorem char_eq_of_toNat_eq {c d : Char} (h : c.toNat = d.toNat) : c = d :=
  Char.ext (UInt32.ext h)

theorem char_beq_eq_decide_toNat (c d : Char) : (c == d) = decide (c.toNat = d.toNat) := by
  by_cases h : c = d
  · subst h; simp
  · have hne : c.toNat ≠ d.toNat := fun e => h (char_eq_of_toNat_eq e)
    simp [h, hne]

theorem userinfoSafe_of_toNat {c : Char}
    (h : (65 ≤ c.toNat ∧ c.toNat ≤ 90) ∨ (97 ≤ c.toNat ∧ c.toNat ≤ 122) ∨
      (48 ≤ c.toNat ∧ c.toNat ≤ 57) ∨
      c.toNat ∈ ([45, 95, 46, 126, 36, 38, 43, 44, 59, 61] : List Nat)) :
    userinfoSafe c = true := by
  have e1 : ('@' : Char).toNat = 64 := rfl
  have e2 : ('/' : Char).toNat = 47 := rfl
  have e3 : ('?' : Char).toNat = 63 := rfl
  have e4 : ('#' : Char).toNat = 35 := rfl
  have e5 : (':' : Char).toNat = 58 := rfl
  unfold userinfoSafe validUserinfoChar isAlphaCode isDigitCode isCTLCode
  simp only [char_beq_eq_decide_toNat, e1, e2, e3, e4, e5, List.contains_cons,
    List.contains_nil, Bool.or_eq_true, Bool.and_eq_true, Bool.not_eq_true',
    decide_eq_false_iff_not, decide_eq_true_eq, beq_iff_eq, Bool.or_false,
    Bool.and_eq_false_iff, Bool.or_eq_false_iff]
  simp only [List.mem_cons, List.not_mem_nil, or_false] at h
  rcases h with ⟨h1, h2⟩ | ⟨h1, h2⟩ | ⟨h1, h2⟩ |
    (h1 | h1 | h1 | h1 | h1 | h1 | h1 | h1 | h1 | h1) <;>
    refine ⟨⟨⟨⟨⟨⟨?_, ?_⟩, ?_⟩, ?_⟩, ?_⟩, ?_⟩, ?_⟩ <;> omega

theorem keep_byte_safe {b : Nat} (hk : keepUserPassword b = true) :
    userinfoSafe (Char.ofNat b) = true ∧ (Char.ofNat b) ≠ '%' := by
  have hb : b < 55296 := by
    rcases keepUserPassword_iff.mp hk with h | h | h | rfl | rfl | rfl | rfl | rfl | rfl |
      rfl | rfl | rfl | rfl <;> omega
  have ht : (Char.ofNat b).toNat = b := char_toNat_ofNat (Or.inl hb)
  constructor
  · apply userinfoSafe_of_toNat
    rw [ht]
    rcases keepUserPassword_iff.mp hk with h | h | h | h | h | h | h | h | h | h | h | h | h
    · exact Or.inl h
    · exact Or.inr (Or.inl h)
    · exact Or.inr (Or.inr (Or.inl h))
    all_goals exact Or.inr (Or.inr (Or.inr (by simp [h])))
  · apply char_ne_of_toNat_ne
    rw [ht, show ('%' : Char).toNat = 37 from rfl]
    rcases keepUserPassword_iff.mp hk with h | h | h | rfl | rfl | rfl | rfl | rfl | rfl |
      rfl | rfl | rfl | rfl <;> omega


theorem unescapePercent_nil : unescapePercent [] = some [] := rfl

theorem unescapePercent_percent (a b : Char) (rest : List Char) :
    unescapePercent ('%' :: a :: b :: rest) =
      if isHexDigit a && isHexDigit b then
        (unescapePercent rest).map fun r => Char.ofNat (16 * hexVal a + hexVal b) :: r
      else none := rfl

theorem unescapePercent_cons_ne {c : Char} (rest : List Char) (h : c ≠ '%') :
    unescapePercent (c :: rest) = (unescapePercent rest).map fun r => c :: r := by
  cases rest with
  | nil => simp [unescapePercent, h]
  | cons a rest1 =>
    cases rest1 with
    | nil => simp [unescapePercent, h]
    | cons b rest2 => simp [unescapePercent, h]

theorem escapeBytes_nil : escapeBytes [] = [] := rfl

theorem escapeBytes_cons (b : Nat) (rest : List Nat) :
    escapeBytes (b :: rest) =
      (if keepUserPassword b then [Char.ofNat b]
       else ['%', upperHexDigit (b / 16), upperHexDigit (b % 16)]) ++ escapeBytes rest := by
  unfold escapeBytes
  rw [List.flatMap_cons]

theorem escapeBytes_safe {bs : List Nat} (hb : ∀ b ∈ bs, b < 256) :
    ∀ c ∈ escapeBytes bs, userinfoSafe c = true := by
  induction bs with
  | nil => intro c hc; rw [escapeBytes_nil] at hc; simp at hc
  | cons b rest ih =>
    intro c hc
    rw [escapeBytes_cons] at hc
    rcases List.mem_append.mp hc with hc1 | hc2
    · by_cases hk : keepUserPassword b = true
      · rw [if_pos hk] at hc1
        rcases List.mem_singleton.mp hc1 with rfl
        exact (keep_byte_safe hk).1
      · rw [if_neg hk] at hc1
        have h16a : b / 16 < 16 := by have := hb b (by simp); omega
        have h16b : b % 16 < 16 := by omega
        rcases List.mem_cons.mp hc1 with rfl | hc3
        · decide
        · rcases List.mem_cons.mp hc3 with rfl | hc4
          · exact (hexChar_safe h16a).1
          · rcases List.mem_singleton.mp hc4 with rfl
            exact (hexChar_safe h16b).1
    · exact ih (fun x hx => hb x (by simp [hx])) c hc2

theorem unescapePercent_escapeBytes_isSome {bs : List Nat} (hb : ∀ b ∈ bs, b < 256) :
    (unescapePercent (escapeBytes bs)).isSome = true := by
  induction bs with
  | nil => rw [escapeBytes_nil, unescapePercent_nil]; rfl
  | cons b rest ih =>
    have ih2 := ih (fun x hx => hb x (by simp [hx]))
    rw [escapeBytes_cons]
    by_cases hk : keepUserPassword b = true
    · rw [if_pos hk, List.singleton_append,
        unescapePercent_cons_ne _ (keep_byte_safe hk).2]
      simpa using ih2
    · rw [if_neg hk]
      have h16a : b / 16 < 16 := by have := hb b (by simp); omega
      have h16b : b % 16 < 16 := by omega
      rw [show (['%', upperHexDigit (b / 16), upperHexDigit (b % 16)] ++ escapeBytes rest) =
        '%' :: upperHexDigit (b / 16) :: upperHexDigit (b % 16) :: escapeBytes rest from rfl]
      rw [unescapePercent_percent]
      rw [if_pos (by rw [(hexChar_safe h16a).2.1, (hexChar_safe h16b).2.1]; rfl)]
      simpa using ih2

theorem cutFirst_eq_none_iff {sep : Char} {l : List Char} :
    cutFirst sep l = none ↔ sep ∉ l := by
  constructor
  · intro h hm
    induction l with
    | nil => simp at hm
    | cons c rest ih =>
      unfold cutFirst at h
      by_cases hc : c = sep
      · rw [if_pos hc] at h; simp at h
      · rw [if_neg hc] at h
        rcases List.mem_cons.mp hm with rfl | hm2
        · exact hc rfl
        · exact ih (by rcases hcf : cutFirst sep rest with _ | p
                       · rfl
                       · rw [hcf] at h; simp at h) hm2
  · exact cutFirst_eq_none

theorem isLowerSafe_toLower (c : Char) : isLowerSafe c.toLower = true := by
  unfold isLowerSafe
  rw [toLower_toNat]
  simp only [Bool.not_eq_true', Bool.and_eq_false_iff, decide_eq_false_iff_not, not_le]
  split_ifs with h <;> omega

theorem map_toLower_idem (l : List Char) :
    (l.map Char.toLower).map Char.toLower = l.map Char.toLower := by
  induction l with
  | nil => rfl
  | cons c cs ih =>
    simp only [List.map_cons, List.cons.injEq]
    exact ⟨toLower_eq_of_lower_safe (isLowerSafe_toLower c), ih⟩

theorem isSchemeChar_iff {c : Char} :
    isSchemeChar c = true ↔
      (65 ≤ c.toNat ∧ c.toNat ≤ 90) ∨ (97 ≤ c.toNat ∧ c.toNat ≤ 122) ∨
        (48 ≤ c.toNat ∧ c.toNat ≤ 57) ∨ c.toNat = 43 ∨ c.toNat = 45 ∨ c.toNat = 46 := by
  have e1 : ('+' : Char).toNat = 43 := rfl
  have e2 : ('-' : Char).toNat = 45 := rfl
  have e3 : ('.' : Char).toNat = 46 := rfl
  unfold isSchemeChar isAlphaCode isDigitCode
  simp only [char_beq_eq_decide_toNat, e1, e2, e3, Bool.or_eq_true, decide_eq_true_eq,
    Bool.and_eq_true]
  tauto

theorem isSchemeChar_toLower {c : Char} (h : isSchemeChar c = true) :
    isSchemeChar c.toLower = true := by
  rw [isSchemeChar_iff] at h ⊢
  rw [toLower_toNat]
  split_ifs with hc <;> omega

theorem isAlphaCode_toLower {c : Char} (h : isAlphaCode c.toNat = true) :
    isAlphaCode c.toLower.toNat = true := by
  unfold isAlphaCode at h ⊢
  simp only [Bool.or_eq_true, Bool.and_eq_true, decide_eq_true_eq] at h ⊢
  rw [toLower_toNat]
  split_ifs with hc <;> omega

theorem schemeChar_facts {c : Char} (h : isSchemeChar c = true) :
    c ≠ '#' ∧ c ≠ '?' ∧ c ≠ ':' ∧ c ≠ '/' ∧ c ≠ '@' ∧ isCTLCode c.toNat = false := by
  rw [isSchemeChar_iff] at h
  have e1 : ('#' : Char).toNat = 35 := rfl
  have e2 : ('?' : Char).toNat = 63 := rfl
  have e3 : (':' : Char).toNat = 58 := rfl
  have e4 : ('/' : Char).toNat = 47 := rfl
  have e5 : ('@' : Char).toNat = 64 := rfl
  refine ⟨char_ne_of_toNat_ne (by omega), char_ne_of_toNat_ne (by omega),
    char_ne_of_toNat_ne (by omega), char_ne_of_toNat_ne (by omega),
    char_ne_of_toNat_ne (by omega), ?_⟩
  unfold isCTLCode
  simp only [Bool.or_eq_false_iff, decide_eq_false_iff_not, not_lt]
  omega

theorem userinfoSafe_facts {c : Char} (h : userinfoSafe c = true) :
    validUserinfoChar c = true ∧ c ≠ '@' ∧ c ≠ '/' ∧ c ≠ '?' ∧ c ≠ '#' ∧ c ≠ ':' ∧
      isCTLCode c.toNat = false := by
  unfold userinfoSafe at h
  simp only [Bool.and_eq_true, Bool.not_eq_true', beq_eq_false_iff_ne] at h
  tauto

theorem parseHost_data {l : List Char} {s : String} (h : parseHost l = some s) :
    s = String.mk l := by
  unfold parseHost at h
  split_ifs at h with h1
  rcases hcl : cutLast ':' l with _ | p
  · rw [hcl] at h
    simpa using h.symm
  · rw [hcl] at h
    dsimp only at h
    split_ifs at h with h2
    simpa using h.symm


theorem splitQuery_mid {base q : List Char} (hb : '?' ∉ base) (hq : q ≠ []) :
    splitQuery (base ++ '?' :: q) = (base, false, q) := by
  unfold splitQuery
  have hdl : (base ++ '?' :: q).dropLast = base ++ ('?' :: q).dropLast := by
    rw [List.dropLast_append_of_ne_nil]
    simp
  rw [if_neg]
  · rw [cutFirst_append hb]
  · intro hcond
    rw [Bool.and_eq_true] at hcond
    have h2 := hcond.2
    rw [hdl] at h2
    have : '?' ∈ base ++ ('?' :: q).dropLast := by
      rcases q with _ | ⟨c, q2⟩
      · exact absurd rfl hq
      · simp
    simp only [Bool.not_eq_true'] at h2
    rw [show ((base ++ ('?' :: q).dropLast).contains '?' = false) ↔
      ('?' ∉ base ++ ('?' :: q).dropLast) from by simp [List.contains]] at h2
    exact h2 this

theorem splitQuery_force_case {base : List Char} (hb : '?' ∉ base) :
    splitQuery (base ++ ['?']) = (base, true, []) := by
  unfold splitQuery
  rw [if_pos]
  · rw [List.dropLast_concat]
  · rw [List.getLast?_concat, List.dropLast_concat]
    simp only [beq_self_eq_true, Bool.true_and, Bool.not_eq_true']
    rw [show (base.contains '?' = false) ↔ ('?' ∉ base) from by simp [List.contains]]
    exact hb

theorem splitQuery_noq {base : List Char} (hb : '?' ∉ base) :
    splitQuery base = (base, false, []) := by
  unfold splitQuery
  have h1 : (base.getLast? == some '?') = false := by
    rcases hl : base.getLast? with _ | c
    · rfl
    · have hc : c ∈ base := List.mem_of_getLast?_eq_some hl
      have : c ≠ '?' := fun e => hb (e ▸ hc)
      simp [this]
  rw [if_neg (by rw [h1]; simp)]
  rw [cutFirst_eq_none hb]


def uiData (pw : Option String) : List Char :=
  "x-access-token".data ++
    (match pw with | some t => ':' :: (escapeUserPassword t).data | none => [])

theorem uiData_eq (pw : Option String) :
    (userinfoString ("x-access-token", pw)).data = uiData pw := by
  cases pw with
  | none =>
    show (escapeUserPassword "x-access-token" ++ "").data = _
    rw [show escapeUserPassword "x-access-token" = "x-access-token" from by decide]
    simp [uiData]
  | some t =>
    show (escapeUserPassword "x-access-token" ++ (":" ++ escapeUserPassword t)).data = _
    rw [show escapeUserPassword "x-access-token" = "x-access-token" from by decide]
    simp [uiData, String.data_append]

theorem escapeUserPassword_safe (t : String) :
    ∀ c ∈ (escapeUserPassword t).data, userinfoSafe c = true := by
  intro c hc
  refine escapeBytes_safe ?_ c hc
  intro b hb
  obtain ⟨ch, _, hbb⟩ := List.mem_flatMap.mp hb
  exact utf8Bytes_lt_256 (char_toNat_lt ch) b hbb

theorem uiData_safe (pw : Option String) :
    ∀ c ∈ uiData pw, userinfoSafe c = true ∨ c = ':' := by
  intro c hc
  unfold uiData at hc
  rcases List.mem_append.mp hc with h1 | h2
  · exact Or.inl ((by decide : ∀ c ∈ "x-access-token".data, userinfoSafe c = true) c h1)
  · cases pw with
    | none => simp at h2
    | some t =>
      rcases List.mem_cons.mp h2 with rfl | h3
      · exact Or.inr rfl
      · exact Or.inl (escapeUserPassword_safe t c h3)

theorem uiData_no (pw : Option String) :
    '@' ∉ uiData pw ∧ '/' ∉ uiData pw ∧ '?' ∉ uiData pw ∧ '#' ∉ uiData pw ∧
      (∀ c ∈ uiData pw, isCTLCode c.toNat = false) ∧ validUserinfo (uiData pw) = true := by
  have hs := uiData_safe pw
  refine ⟨fun hm => ?_, fun hm => ?_, fun hm => ?_, fun hm => ?_, fun c hc => ?_, ?_⟩
  · rcases hs _ hm with h | h
    · exact absurd h (by decide)
    · exact absurd h (by decide)
  · rcases hs _ hm with h | h
    · exact absurd h (by decide)
    · exact absurd h (by decide)
  · rcases hs _ hm with h | h
    · exact absurd h (by decide)
    · exact absurd h (by decide)
  · rcases hs _ hm with h | h
    · exact absurd h (by decide)
    · exact absurd h (by decide)
  · rcases hs _ hc with h | rfl
    · exact (userinfoSafe_facts h).2.2.2.2.2.2
    · decide
  · refine List.all_eq_true.mpr fun c hc => ?_
    rcases hs _ (by simpa using hc) with h | h
    · exact (userinfoSafe_facts h).1
    · subst h; decide

theorem uiData_head (pw : Option String) : ∃ r, uiData pw = 'x' :: r := by
  cases pw <;> exact ⟨_, rfl⟩


theorem parseAuthority_uiData (pw : Option String) (host : List Char) (hostS : String)
    (hha : '@' ∉ host) (hph : parseHost host = some hostS) :
    ∃ us : Option String, (pw = none → us = none) ∧
      parseAuthority (uiData pw ++ '@' :: host) =
        some (some ("x-access-token", us), hostS) := by
  have hcl : cutLast '@' (uiData pw ++ '@' :: host) = some (uiData pw, host) :=
    cutLast_append hha
  unfold parseAuthority
  rw [hcl]
  dsimp only
  rw [if_pos (uiData_no pw).2.2.2.2.2]
  cases pw with
  | none =>
    refine ⟨none, fun _ => rfl, ?_⟩
    rw [show cutFirst ':' (uiData none) = none from by decide]
    rw [show unescapePercent (uiData none) = some "x-access-token".data from by decide]
    rw [hph]
    rfl
  | some t =>
    have hcf : cutFirst ':' (uiData (some t)) =
        some ("x-access-token".data, (escapeUserPassword t).data) := by
      unfold uiData
      exact cutFirst_append (by decide)
    rw [hcf]
    dsimp only
    have hbs : ∀ b ∈ (t.data.flatMap fun c => utf8Bytes c.toNat), b < 256 := by
      intro b hb
      obtain ⟨ch, _, hbb⟩ := List.mem_flatMap.mp hb
      exact utf8Bytes_lt_256 (char_toNat_lt ch) b hbb
    obtain ⟨p2, hp2⟩ := Option.isSome_iff_exists.mp
      (unescapePercent_escapeBytes_isSome hbs :
        (unescapePercent (escapeUserPassword t).data).isSome = true)
    have hp2b : unescapePercent (escapeUserPassword t).data = some p2 := hp2
    rw [show unescapePercent "x-access-token".data = some "x-access-token".data from by decide]
    rw [hp2b]
    refine ⟨some (String.mk p2), ?_, ?_⟩
    · intro h
      cases h
    · rw [hph]


def parseAfterScheme (scheme rest1 frag : List Char) : Option GoURL :=
  let q := splitQuery rest1
  let rest2 := q.1
  if (rest2.head? == some '/') = false then
    if !scheme.isEmpty then
      some { scheme := String.mk scheme, opaquePart := String.mk rest2,
             forceQuery := q.2.1, rawQuery := String.mk q.2.2,
             fragment := String.mk frag }
    else
      let segment := match cutFirst '/' rest2 with | some (a, _) => a | none => rest2
      if segment.contains ':' then none
      else
        some { path := String.mk rest2, forceQuery := q.2.1,
               rawQuery := String.mk q.2.2, fragment := String.mk frag }
  else
    if (!scheme.isEmpty || !(rest2.take 3 == ['/', '/', '/'])) &&
        (rest2.take 2 == ['/', '/']) then
      let after2 := rest2.drop 2
      let pa :=
        match cutFirst '/' after2 with
        | some (a, r) => (a, '/' :: r)
        | none => (after2, ([] : List Char))
      match parseAuthority pa.1 with
      | none => none
      | some (us, h) =>
        some { scheme := String.mk scheme, user := us, host := h,
               path := String.mk pa.2, forceQuery := q.2.1,
               rawQuery := String.mk q.2.2, fragment := String.mk frag }
    else
      some { scheme := String.mk scheme, path := String.mk rest2,
             forceQuery := q.2.1, rawQuery := String.mk q.2.2,
             fragment := String.mk frag }

def parseAfterFrag (body frag : List Char) : Option GoURL :=
  match findScheme [] body true with
  | .error _ => none
  | .ok schemeOpt =>
    match schemeOpt with
    | some (sc, r) => parseAfterScheme (sc.map Char.toLower) r frag
    | none => parseAfterScheme [] body frag

theorem goURLParse_eq_parseAfterFrag {s : String} {body frag : List Char}
    (hdata : s.data = body ++ (if frag = [] then [] else '#' :: frag))
    (hctl : s.data.any (fun c => isCTLCode c.toNat) = false)
    (hb : '#' ∉ body) :
    goURLParse s = parseAfterFrag body frag := by
  unfold goURLParse
  dsimp only
  rw [hctl, if_neg (by decide : ¬ (false = true))]
  by_cases hfr : frag = []
  · rw [if_pos hfr, List.append_nil] at hdata
    subst hfr
    rw [hdata, cutFirst_eq_none hb]
    dsimp only
    unfold parseAfterFrag
    cases hfs : findScheme [] body true with
    | error e => rfl
    | ok so =>
      cases so with
      | none => rfl
      | some p =>
        obtain ⟨sc, r⟩ := p
        rfl
  · rw [if_neg hfr] at hdata
    rw [hdata, cutFirst_append hb]
    dsimp only
    unfold parseAfterFrag
    cases hfs : findScheme [] body true with
    | error e => rfl
    | ok so =>
      cases so with
      | none => rfl
      | some p =>
        obtain ⟨sc, r⟩ := p
        rfl

theorem parseAfterFrag_slash (X Y frag : List Char) :
    parseAfterFrag (('/' :: X) ++ Y) frag = parseAfterScheme [] (('/' :: X) ++ Y) frag := by
  unfold parseAfterFrag
  rw [show (('/' :: X) ++ Y) = '/' :: (X ++ Y) from rfl]
  rw [findScheme_slash]

theorem parseAfterFrag_scheme {c : Char} {cs : List Char} (X frag : List Char)
    (hc : isAlphaCode c.toNat = true) (hcs : ∀ d ∈ cs, isSchemeChar d = true)
    (hlow : (c :: cs).map Char.toLower = c :: cs) :
    parseAfterFrag ((c :: cs) ++ ':' :: X) frag = parseAfterScheme (c :: cs) X frag := by
  unfold parseAfterFrag
  rw [show ((c :: cs) ++ ':' :: X) = c :: (cs ++ ':' :: X) from rfl]
  rw [findScheme_complete hc hcs]
  dsimp only
  rw [hlow]


theorem parseAfterScheme_authority
    (schemeL : List Char) (pw : Option String) (host path query frag : List Char)
    (fq : Bool) (hostS : String) (us : Option String)
    (hpa : parseAuthority (uiData pw ++ '@' :: host) =
      some (some ("x-access-token", us), hostS))
    (hsbq : '?' ∉ '/' :: '/' :: (uiData pw ++ '@' :: host ++ path))
    (hfq : fq = true → query = [])
    (hpath : path = [] ∨ ∃ r, path = '/' :: r)
    (hslash : '/' ∉ uiData pw ++ '@' :: host) :
    parseAfterScheme schemeL
        ('/' :: '/' :: (uiData pw ++ '@' :: host ++ path) ++
          (if fq = true ∨ query ≠ [] then '?' :: query else [])) frag =
      some { scheme := String.mk schemeL, user := some ("x-access-token", us),
             host := hostS, path := String.mk path, forceQuery := fq,
             rawQuery := String.mk query, fragment := String.mk frag } := by
  have hsq : splitQuery ('/' :: '/' :: (uiData pw ++ '@' :: host ++ path) ++
      (if fq = true ∨ query ≠ [] then '?' :: query else [])) =
      ('/' :: '/' :: (uiData pw ++ '@' :: host ++ path), fq, query) := by
    cases fq with
    | true =>
      have hq0 := hfq rfl
      subst hq0
      rw [if_pos (Or.inl rfl)]
      exact splitQuery_force_case hsbq
    | false =>
      by_cases hqe : query = []
      · subst hqe
        rw [if_neg (by simp), List.append_nil]
        exact splitQuery_noq hsbq
      · rw [if_pos (Or.inr hqe)]
        exact splitQuery_mid hsbq hqe
  unfold parseAfterScheme
  dsimp only
  rw [hsq]
  dsimp only
  rw [if_neg (by simp : ¬ ((('/' :: '/' :: (uiData pw ++ '@' :: host ++ path)).head? ==
    some '/') = false))]
  obtain ⟨r0, hr0⟩ := uiData_head pw
  have hinner : uiData pw ++ '@' :: host ++ path = 'x' :: (r0 ++ '@' :: host ++ path) := by
    rw [hr0]
    simp [List.cons_append]
  have hcond : ((!schemeL.isEmpty ||
      !(('/' :: '/' :: (uiData pw ++ '@' :: host ++ path)).take 3 == ['/', '/', '/'])) &&
      (('/' :: '/' :: (uiData pw ++ '@' :: host ++ path)).take 2 == ['/', '/'])) = true := by
    rw [hinner]
    rw [List.take_succ_cons, List.take_succ_cons, List.take_succ_cons, List.take_zero]
    rw [List.take_succ_cons, List.take_succ_cons, List.take_zero]
    simp
  rw [if_pos hcond]
  rw [show ('/' :: '/' :: (uiData pw ++ '@' :: host ++ path)).drop 2 =
    uiData pw ++ '@' :: host ++ path from rfl]
  rcases hpath with hpe | ⟨pr, hpr⟩
  · subst hpe
    rw [List.append_nil, cutFirst_eq_none hslash]
    dsimp only
    rw [hpa]
  · subst hpr
    rw [show uiData pw ++ '@' :: host ++ '/' :: pr =
      (uiData pw ++ '@' :: host) ++ '/' :: pr from by simp [List.append_assoc]]
    rw [cutFirst_append hslash]
    dsimp only
    rw [hpa]


theorem goURLParse_authority_form
    (s : String) (schemeL host path query frag : List Char) (fq : Bool)
    (pw : Option String) (hostS : String)
    (hdata : s.data =
      (if schemeL = [] then [] else schemeL ++ [':']) ++
        ('/' :: '/' :: (uiData pw ++ '@' :: host ++ path) ++
          (if fq = true ∨ query ≠ [] then '?' :: query else [])) ++
        (if frag = [] then [] else '#' :: frag))
    (hsc : ∀ c ∈ schemeL, isSchemeChar c = true)
    (hlow : schemeL.map Char.toLower = schemeL)
    (halpha : schemeL = [] ∨ ∃ c cs, schemeL = c :: cs ∧ isAlphaCode c.toNat = true)
    (hph : parseHost host = some hostS)
    (hhost : '#' ∉ host ∧ '?' ∉ host ∧ '/' ∉ host ∧ '@' ∉ host ∧
      ∀ c ∈ host, isCTLCode c.toNat = false)
    (hpath : path = [] ∨ ∃ r, path = '/' :: r)
    (hpathf : '#' ∉ path ∧ '?' ∉ path ∧ ∀ c ∈ path, isCTLCode c.toNat = false)
    (hqf : '#' ∉ query ∧ ∀ c ∈ query, isCTLCode c.toNat = false)
    (hfq : fq = true → query = [])
    (hfrag : ∀ c ∈ frag, isCTLCode c.toNat = false) :
    ∃ us : Option String, (pw = none → us = none) ∧
      goURLParse s = some
        { scheme := String.mk schemeL, user := some ("x-access-token", us),
          host := hostS, path := String.mk path, forceQuery := fq,
          rawQuery := String.mk query, fragment := String.mk frag } := by
  obtain ⟨us, hus, hpa⟩ := parseAuthority_uiData pw host hostS hhost.2.2.2.1 hph
  refine ⟨us, hus, ?_⟩
  have hui := uiData_no pw
  have hsbGen : ∀ c, c ∈ '/' :: '/' :: (uiData pw ++ '@' :: host ++ path) →
      c = '/' ∨ c ∈ uiData pw ∨ c = '@' ∨ c ∈ host ∨ c ∈ path := by
    intro c hm
    rcases List.mem_cons.mp hm with h | hm2
    · exact Or.inl h
    rcases List.mem_cons.mp hm2 with h | hm3
    · exact Or.inl h
    rcases List.mem_append.mp hm3 with h4 | h5
    · rcases List.mem_append.mp h4 with h6 | h7
      · exact Or.inr (Or.inl h6)
      · rcases List.mem_cons.mp h7 with h | h
        · exact Or.inr (Or.inr (Or.inl h))
        · exact Or.inr (Or.inr (Or.inr (Or.inl h)))
    · exact Or.inr (Or.inr (Or.inr (Or.inr h5)))
  have hsbq : '?' ∉ '/' :: '/' :: (uiData pw ++ '@' :: host ++ path) := by
    intro hm
    rcases hsbGen _ hm with h | h | h | h | h
    · exact absurd h (by decide)
    · exact hui.2.2.1 h
    · exact absurd h (by decide)
    · exact hhost.2.1 h
    · exact hpathf.2.1 h
  have hslash : '/' ∉ uiData pw ++ '@' :: host := by
    intro hm
    rcases List.mem_append.mp hm with h | h
    · exact hui.2.1 h
    · rcases List.mem_cons.mp h with h | h
      · exact absurd h (by decide)
      · exact hhost.2.2.1 h
  have hsmem : ∀ c ∈ (if schemeL = [] then [] else schemeL ++ [':']),
      isSchemeChar c = true ∨ c = ':' := by
    intro c hc
    revert hc
    split_ifs with hsl
    · intro hc
      simp at hc
    · intro hc
      rcases List.mem_append.mp hc with ha | hb
      · exact Or.inl (hsc c ha)
      · exact Or.inr (List.mem_singleton.mp hb)
  have hqmem : ∀ c ∈ (if fq = true ∨ query ≠ [] then '?' :: query else []),
      c = '?' ∨ c ∈ query := by
    intro c hc
    revert hc
    split_ifs with h
    · intro hc
      exact List.mem_cons.mp hc
    · intro hc
      simp at hc
  have hbodyh : '#' ∉ (if schemeL = [] then [] else schemeL ++ [':']) ++
      ('/' :: '/' :: (uiData pw ++ '@' :: host ++ path) ++
        (if fq = true ∨ query ≠ [] then '?' :: query else [])) := by
    intro hm
    rcases List.mem_append.mp hm with h1 | h2
    · rcases hsmem _ h1 with h | h
      · exact absurd h (by decide)
      · exact absurd h (by decide)
    · rcases List.mem_append.mp h2 with h3 | h4
      · rcases hsbGen _ h3 with h | h | h | h | h
        · exact absurd h (by decide)
        · exact hui.2.2.2.1 h
        · exact absurd h (by decide)
        · exact hhost.1 h
        · exact hpathf.1 h
      · rcases hqmem _ h4 with h | h
        · exact absurd h (by decide)
        · exact hqf.1 h
  have hctlS : s.data.any (fun c => isCTLCode c.toNat) = false := by
    rw [hdata]
    rw [List.any_eq_false]
    intro c hc
    simp only [Bool.not_eq_true]
    rcases List.mem_append.mp hc with h0 | hfr
    · rcases List.mem_append.mp h0 with h1 | h2
      · rcases hsmem _ h1 with h | h
        · exact (schemeChar_facts h).2.2.2.2.2
        · subst h; decide
      · rcases List.mem_append.mp h2 with h3 | h4
        · rcases hsbGen _ h3 with h | h | h | h | h
          · subst h; decide
          · exact hui.2.2.2.2.1 _ h
          · subst h; decide
          · exact hhost.2.2.2.2 _ h
          · exact hpathf.2.2 _ h
        · rcases hqmem _ h4 with h | h
          · subst h; decide
          · exact hqf.2 _ h
    · revert hfr
      split_ifs with hfe
      · intro hfr
        simp at hfr
      · intro hfr
        rcases List.mem_cons.mp hfr with h | h
        · subst h; decide
        · exact hfrag _ h
  rw [goURLParse_eq_parseAfterFrag hdata hctlS hbodyh]
  by_cases hsl : schemeL = []
  · subst hsl
    rw [if_pos rfl, List.nil_append]
    rw [parseAfterFrag_slash]
    exact parseAfterScheme_authority _ pw host path query frag fq hostS us hpa hsbq hfq
      hpath hslash
  · obtain ⟨c, cs, hcc, hal⟩ := halpha.resolve_left hsl
    subst hcc
    rw [if_neg hsl]
    rw [List.append_assoc, List.singleton_append]
    rw [parseAfterFrag_scheme _ frag hal (fun d hd => hsc d (List.mem_cons_of_mem c hd)) hlow]
    exact parseAfterScheme_authority _ pw host path query frag fq hostS us hpa hsbq hfq
      hpath hslash


theorem string_eq_empty_iff (s : String) : s = "" ↔ s.data = [] := by
  constructor
  · intro h
    rw [h]
  · intro h
    cases s with
    | mk d =>
      simp only at h
      rw [h]

theorem goURLString_inject_data (u : GoURL) (pw : Option String)
    (hop : u.opaquePart = "")
    (hpath : u.path.data = [] ∨ ∃ r, u.path.data = '/' :: r) :
    (goURLString { u with user := some ("x-access-token", pw) }).data =
      (if u.scheme.data = [] then [] else u.scheme.data ++ [':']) ++
        ('/' :: '/' :: (uiData pw ++ '@' :: u.host.data ++ u.path.data) ++
          (if u.forceQuery = true ∨ u.rawQuery.data ≠ [] then '?' :: u.rawQuery.data
           else [])) ++
        (if u.fragment.data = [] then [] else '#' :: u.fragment.data) := by
  have he : "".data = ([] : List Char) := rfl
  have hcolon : ":".data = [':'] := rfl
  have hss : "//".data = ['/', '/'] := rfl
  have hqm : "?".data = ['?'] := rfl
  have hhm : "#".data = ['#'] := rfl
  unfold goURLString
  dsimp only
  rw [hop]
  rw [if_neg (by simp : ¬ ("" : String) ≠ "")]
  rw [if_pos (show u.scheme ≠ "" ∨ u.host ≠ "" ∨
    (some ("x-access-token", pw)).isSome = true from Or.inr (Or.inr rfl))]
  have hslashif : (if u.path ≠ "" ∧ u.path.data.head? ≠ some '/' ∧ u.host ≠ ""
      then "/" else "") = "" := by
    rcases hpath with hp | ⟨r, hp⟩
    · rw [if_neg]
      rintro ⟨h1, _, _⟩
      exact h1 ((string_eq_empty_iff u.path).mpr hp)
    · rw [if_neg]
      rintro ⟨_, h2, _⟩
      rw [hp] at h2
      exact h2 rfl
  rw [hslashif]
  by_cases hs : u.scheme.data = [] <;>
    by_cases hf : u.fragment.data = [] <;>
      by_cases hq : u.forceQuery = true ∨ ¬ u.rawQuery.data = [] <;>
        simp [hs, hf, hq, he, hcolon, hss, hqm, hhm, uiData_eq, string_eq_empty_iff,
          String.data_append, List.append_assoc]


theorem cutLast_eq_none_iff {sep : Char} {l : List Char} :
    cutLast sep l = none ↔ sep ∉ l := by
  unfold cutLast
  rw [Option.map_eq_none']
  rw [cutFirst_eq_none_iff]
  simp

theorem splitQuery_facts (l : List Char) :
    (∀ c ∈ (splitQuery l).1, c ∈ l) ∧ (∀ c ∈ (splitQuery l).2.2, c ∈ l) ∧
      '?' ∉ (splitQuery l).1 ∧ ((splitQuery l).2.1 = true → (splitQuery l).2.2 = []) := by
  unfold splitQuery
  split_ifs with hcond
  · refine ⟨fun c hc => List.dropLast_subset l hc, fun c hc => by simp at hc, ?_, fun _ => rfl⟩
    rw [Bool.and_eq_true] at hcond
    have h2 := hcond.2
    simp only [Bool.not_eq_true'] at h2
    intro hm
    rw [show (l.dropLast.contains '?' = false) ↔ ('?' ∉ l.dropLast) from by
      simp [List.contains]] at h2
    exact h2 hm
  · rcases hcf : cutFirst '?' l with _ | ⟨b, q⟩
    · refine ⟨fun c hc => hc, fun c hc => by simp at hc, cutFirst_eq_none_iff.mp hcf,
        fun _ => rfl⟩
    · obtain ⟨hl, hnb⟩ := cutFirst_eq_some hcf
      refine ⟨fun c hc => ?_, fun c hc => ?_, hnb, fun h => absurd h (by simp)⟩
      · rw [hl]
        exact List.mem_append_left _ hc
      · rw [hl]
        exact List.mem_append_right _ (List.mem_cons_of_mem _ hc)

theorem parseAuthority_host {auth : List Char} {usr : Option (String × Option String)}
    {hst : String} (h : parseAuthority auth = some (usr, hst)) :
    parseHost hst.data = some hst ∧ (∀ c ∈ hst.data, c ∈ auth) ∧ '@' ∉ hst.data := by
  unfold parseAuthority at h
  rcases hcl : cutLast '@' auth with _ | ⟨ui, hp⟩
  · rw [hcl] at h
    rcases hph : parseHost auth with _ | s2
    · rw [hph] at h
      simp at h
    · rw [hph] at h
      simp only [Option.map_some', Option.some.injEq, Prod.mk.injEq] at h
      obtain ⟨h1, h2⟩ := h
      have hd : hst = String.mk auth := by
        rw [← h2]
        exact parseHost_data hph
      have hdd : hst.data = auth := by rw [hd]
      have hps : parseHost auth = some hst := by rw [hph, h2]
      refine ⟨?_, ?_, ?_⟩
      · rw [hdd]
        exact hps
      · intro c hc
        rw [hdd] at hc
        exact hc
      · rw [hdd]
        exact cutLast_eq_none_iff.mp hcl
  · rw [hcl] at h
    dsimp only at h
    split_ifs at h with hvu
    obtain ⟨hla, hnb⟩ := cutLast_eq_some hcl
    rcases huo : (match cutFirst ':' ui with
      | none => (unescapePercent ui).map fun uu => (String.mk uu, (none : Option String))
      | some (uu, pp) =>
        match unescapePercent uu, unescapePercent pp with
        | some u2, some p2 => some (String.mk u2, some (String.mk p2))
        | _, _ => none) with _ | us2
    · rw [huo] at h
      simp at h
    · rw [huo] at h
      rcases hph : parseHost hp with _ | s2
      · rw [hph] at h
        simp at h
      · rw [hph] at h
        simp only [Option.some.injEq, Prod.mk.injEq] at h
        obtain ⟨h1, h2⟩ := h
        have hd : hst = String.mk hp := by
          rw [← h2]
          exact parseHost_data hph
        have hdd : hst.data = hp := by rw [hd]
        have hps : parseHost hp = some hst := by rw [hph, h2]
        refine ⟨?_, ?_, ?_⟩
        · rw [hdd]
          exact hps
        · intro c hc
          rw [hdd] at hc
          rw [hla]
          exact List.mem_append_right _ (List.mem_cons_of_mem _ hc)
        · rw [hdd]
          exact hnb


theorem goURLParse_eq_parseAfterFrag_of_cut {raw : String} {B F : List Char}
    (hctl : raw.data.any (fun c => isCTLCode c.toNat) = false)
    (hcut : cutFirst '#' raw.data = some (B, F)) :
    goURLParse raw = parseAfterFrag B F := by
  unfold goURLParse
  dsimp only
  rw [hctl, if_neg (by decide : ¬ (false = true)), hcut]
  dsimp only
  unfold parseAfterFrag
  cases hfs : findScheme [] B true with
  | error e => rfl
  | ok so =>
    cases so with
    | none => rfl
    | some p =>
      obtain ⟨sc, r⟩ := p
      rfl

theorem goURLParse_eq_parseAfterFrag_of_nocut {raw : String}
    (hctl : raw.data.any (fun c => isCTLCode c.toNat) = false)
    (hcut : cutFirst '#' raw.data = none) :
    goURLParse raw = parseAfterFrag raw.data [] := by
  unfold goURLParse
  dsimp only
  rw [hctl, if_neg (by decide : ¬ (false = true)), hcut]
  dsimp only
  unfold parseAfterFrag
  cases hfs : findScheme [] raw.data true with
  | error e => rfl
  | ok so =>
    cases so with
    | none => rfl
    | some p =>
      obtain ⟨sc, r⟩ := p
      rfl

theorem parseAfterScheme_wf {schemeL rest1 frag : List Char} {u : GoURL}
    (h : parseAfterScheme schemeL rest1 frag = some u) (hh : u.host ≠ "") :
    u.scheme = String.mk schemeL ∧ u.opaquePart = "" ∧
      parseHost u.host.data = some u.host ∧
      (∀ c ∈ u.host.data, c ∈ rest1) ∧ '@' ∉ u.host.data ∧ '/' ∉ u.host.data ∧
      '?' ∉ u.host.data ∧
      (u.path.data = [] ∨ ∃ r, u.path.data = '/' :: r) ∧
      (∀ c ∈ u.path.data, c ∈ rest1) ∧ '?' ∉ u.path.data ∧
      (∀ c ∈ u.rawQuery.data, c ∈ rest1) ∧
      (u.forceQuery = true → u.rawQuery = "") ∧ u.fragment = String.mk frag := by
  unfold parseAfterScheme at h
  dsimp only at h
  have hsqf := splitQuery_facts rest1
  rcases hq : splitQuery rest1 with ⟨rest2, fq2, q2⟩
  rw [hq] at h hsqf
  dsimp only at h hsqf
  obtain ⟨hm1, hm2, hnq, hfq0⟩ := hsqf
  by_cases hh1 : ((rest2.head? == some '/') = false)
  · rw [if_pos hh1] at h
    by_cases hse : (!schemeL.isEmpty) = true
    · rw [if_pos hse] at h
      injection h with h2
      subst h2
      exact absurd rfl hh
    · rw [if_neg hse] at h
      split_ifs at h with hseg
      injection h with h2
      subst h2
      exact absurd rfl hh
  · rw [if_neg hh1] at h
    by_cases hc2 : ((!schemeL.isEmpty || !(rest2.take 3 == ['/', '/', '/'])) &&
        (rest2.take 2 == ['/', '/'])) = true
    · rw [if_pos hc2] at h
      rcases hcf2 : cutFirst '/' (rest2.drop 2) with _ | ⟨a2, r2⟩
      · rw [hcf2] at h
        dsimp only at h
        rcases hpaE : parseAuthority (rest2.drop 2) with _ | p2
        · rw [hpaE] at h
          simp at h
        · obtain ⟨usr, hst⟩ := p2
          rw [hpaE] at h
          dsimp only at h
          injection h with h2
          subst h2
          obtain ⟨hph0, hmem0, hat0⟩ := parseAuthority_host hpaE
          have hnsl : '/' ∉ rest2.drop 2 := cutFirst_eq_none_iff.mp hcf2
          refine ⟨rfl, rfl, hph0, ?_, hat0, ?_, ?_, Or.inl rfl, ?_, ?_, ?_, ?_, rfl⟩
          · intro c hc
            exact hm1 c (List.drop_subset 2 rest2 (hmem0 c hc))
          · intro hm
            exact hnsl (hmem0 _ hm)
          · intro hm
            exact hnq (List.drop_subset 2 rest2 (hmem0 _ hm))
          · intro c hc
            simp at hc
          · intro hm
            simp at hm
          · intro c hc
            exact hm2 c hc
          · intro hf
            have := hfq0 hf
            subst this
            rfl
      · rw [hcf2] at h
        dsimp only at h
        obtain ⟨hsplit, hna⟩ := cutFirst_eq_some hcf2
        rcases hpaE : parseAuthority a2 with _ | p2
        · rw [hpaE] at h
          simp at h
        · obtain ⟨usr, hst⟩ := p2
          rw [hpaE] at h
          dsimp only at h
          injection h with h2
          subst h2
          obtain ⟨hph0, hmem0, hat0⟩ := parseAuthority_host hpaE
          have ha2sub : ∀ c ∈ a2, c ∈ rest2.drop 2 := by
            intro c hc
            rw [hsplit]
            exact List.mem_append_left _ hc
          have hr2sub : ∀ c ∈ ('/' :: r2), c ∈ rest2.drop 2 := by
            intro c hc
            rw [hsplit]
            rcases List.mem_cons.mp hc with rfl | hc2
            · exact List.mem_append_right _ (List.mem_cons_self _ _)
            · exact List.mem_append_right _ (List.mem_cons_of_mem _ hc2)
          refine ⟨rfl, rfl, hph0, ?_, hat0, ?_, ?_, Or.inr ⟨r2, rfl⟩, ?_, ?_, ?_, ?_, rfl⟩
          · intro c hc
            exact hm1 c (List.drop_subset 2 rest2 (ha2sub c (hmem0 c hc)))
          · intro hm
            exact hna (hmem0 _ hm)
          · intro hm
            exact hnq (List.drop_subset 2 rest2 (ha2sub _ (hmem0 _ hm)))
          · intro c hc
            exact hm1 c (List.drop_subset 2 rest2 (hr2sub c hc))
          · intro hm
            rcases List.mem_cons.mp hm with h3 | h3
            · exact absurd h3 (by decide)
            · exact hnq (List.drop_subset 2 rest2 (hr2sub _ (List.mem_cons_of_mem _ h3)))
          · intro c hc
            exact hm2 c hc
          · intro hf
            have := hfq0 hf
            subst this
            rfl
    · rw [if_neg hc2] at h
      injection h with h2
      subst h2
      exact absurd rfl hh


theorem wf_assemble {u : GoURL} {B F : List Char} {raw : String}
    (hctlr : ∀ c ∈ raw.data, isCTLCode c.toNat = false)
    (hBsub : ∀ c ∈ B, c ∈ raw.data) (hFsub : ∀ c ∈ F, c ∈ raw.data) (hBh : '#' ∉ B)
    (hS1 : ∀ c ∈ u.scheme.data, isSchemeChar c = true)
    (hS2 : u.scheme.data.map Char.toLower = u.scheme.data)
    (hS3 : u.scheme.data = [] ∨ ∃ c cs, u.scheme.data = c :: cs ∧ isAlphaCode c.toNat = true)
    (hop : u.opaquePart = "")
    (hph : parseHost u.host.data = some u.host)
    (hhostB : ∀ c ∈ u.host.data, c ∈ B)
    (hat : '@' ∉ u.host.data) (hsl : '/' ∉ u.host.data) (hqm : '?' ∉ u.host.data)
    (hpath : u.path.data = [] ∨ ∃ r, u.path.data = '/' :: r)
    (hpathB : ∀ c ∈ u.path.data, c ∈ B) (hpq : '?' ∉ u.path.data)
    (hqB : ∀ c ∈ u.rawQuery.data, c ∈ B)
    (hfq : u.forceQuery = true → u.rawQuery = "")
    (hfrag : u.fragment = String.mk F) :
    (∀ c ∈ u.scheme.data, isSchemeChar c = true) ∧
      u.scheme.data.map Char.toLower = u.scheme.data ∧
      (u.scheme.data = [] ∨ ∃ c cs, u.scheme.data = c :: cs ∧ isAlphaCode c.toNat = true) ∧
      u.opaquePart = "" ∧
      parseHost u.host.data = some u.host ∧
      ('#' ∉ u.host.data ∧ '?' ∉ u.host.data ∧ '/' ∉ u.host.data ∧ '@' ∉ u.host.data ∧
        ∀ c ∈ u.host.data, isCTLCode c.toNat = false) ∧
      (u.path.data = [] ∨ ∃ r, u.path.data = '/' :: r) ∧
      ('#' ∉ u.path.data ∧ '?' ∉ u.path.data ∧
        ∀ c ∈ u.path.data, isCTLCode c.toNat = false) ∧
      ('#' ∉ u.rawQuery.data ∧ ∀ c ∈ u.rawQuery.data, isCTLCode c.toNat = false) ∧
      (u.forceQuery = true → u.rawQuery = "") ∧
      (∀ c ∈ u.fragment.data, isCTLCode c.toNat = false) := by
  refine ⟨hS1, hS2, hS3, hop, hph,
    ⟨fun hm => hBh (hhostB _ hm), hqm, hsl, hat,
      fun c hc => hctlr c (hBsub c (hhostB c hc))⟩,
    hpath,
    ⟨fun hm => hBh (hpathB _ hm), hpq, fun c hc => hctlr c (hBsub c (hpathB c hc))⟩,
    ⟨fun hm => hBh (hqB _ hm), fun c hc => hctlr c (hBsub c (hqB c hc))⟩,
    hfq, ?_⟩
  intro c hc
  rw [hfrag] at hc
  exact hctlr c (hFsub c hc)

theorem goURLParse_host_wf {raw : String} {u : GoURL}
    (h : goURLParse raw = some u) (hh : u.host ≠ "") :
    (∀ c ∈ u.scheme.data, isSchemeChar c = true) ∧
      u.scheme.data.map Char.toLower = u.scheme.data ∧
      (u.scheme.data = [] ∨ ∃ c cs, u.scheme.data = c :: cs ∧ isAlphaCode c.toNat = true) ∧
      u.opaquePart = "" ∧
      parseHost u.host.data = some u.host ∧
      ('#' ∉ u.host.data ∧ '?' ∉ u.host.data ∧ '/' ∉ u.host.data ∧ '@' ∉ u.host.data ∧
        ∀ c ∈ u.host.data, isCTLCode c.toNat = false) ∧
      (u.path.data = [] ∨ ∃ r, u.path.data = '/' :: r) ∧
      ('#' ∉ u.path.data ∧ '?' ∉ u.path.data ∧
        ∀ c ∈ u.path.data, isCTLCode c.toNat = false) ∧
      ('#' ∉ u.rawQuery.data ∧ ∀ c ∈ u.rawQuery.data, isCTLCode c.toNat = false) ∧
      (u.forceQuery = true → u.rawQuery = "") ∧
      (∀ c ∈ u.fragment.data, isCTLCode c.toNat = false) := by
  have hctl : raw.data.any (fun c => isCTLCode c.toNat) = false := by
    cases hctl0 : raw.data.any (fun c => isCTLCode c.toNat) with
    | false => rfl
    | true =>
      unfold goURLParse at h
      dsimp only at h
      rw [hctl0] at h
      simp at h
  have hctlr : ∀ c ∈ raw.data, isCTLCode c.toNat = false := by
    intro c hc
    have h2 := List.any_eq_false.mp hctl c hc
    exact Bool.eq_false_iff.mpr h2
  obtain ⟨B, F, hBF, hBsub, hFsub, hBh⟩ :
      ∃ B F, goURLParse raw = parseAfterFrag B F ∧ (∀ c ∈ B, c ∈ raw.data) ∧
        (∀ c ∈ F, c ∈ raw.data) ∧ '#' ∉ B := by
    rcases hcut : cutFirst '#' raw.data with _ | ⟨B, F⟩
    · exact ⟨raw.data, [], goURLParse_eq_parseAfterFrag_of_nocut hctl hcut,
        fun c hc => hc, fun c hc => by simp at hc, cutFirst_eq_none_iff.mp hcut⟩
    · obtain ⟨hl, hnb⟩ := cutFirst_eq_some hcut
      exact ⟨B, F, goURLParse_eq_parseAfterFrag_of_cut hctl hcut,
        fun c hc => by rw [hl]; exact List.mem_append_left _ hc,
        fun c hc => by rw [hl]; exact List.mem_append_right _ (List.mem_cons_of_mem _ hc),
        hnb⟩
  rw [hBF] at h
  unfold parseAfterFrag at h
  rcases hfsc : findScheme [] B true with e | so
  · rw [hfsc] at h
    simp at h
  · rw [hfsc] at h
    rcases so with _ | ⟨sc, r⟩
    · dsimp only at h
      obtain ⟨c1, c2, c3, c4, c5, c6, c7, c8, c9, c10, c11, c12, c13⟩ :=
        parseAfterScheme_wf h hh
      have hsd : u.scheme.data = [] := by rw [c1]
      refine wf_assemble hctlr hBsub hFsub hBh ?_ ?_ ?_ c2 c3 c4 c5 c6 c7 c8 c9 c10 c11
        c12 c13
      · intro c hc
        rw [hsd] at hc
        simp at hc
      · rw [hsd]
        rfl
      · exact Or.inl hsd
    · dsimp only at h
      obtain ⟨c1, c2, c3, c4, c5, c6, c7, c8, c9, c10, c11, c12, c13⟩ :=
        parseAfterScheme_wf h hh
      obtain ⟨pre, hout, hl2, hpre, halp⟩ := findScheme_sound hfsc
      have hscpre : sc = pre := by
        rw [hout]
        simp
      subst hscpre
      have hsd : u.scheme.data = sc.map Char.toLower := by rw [c1]
      have hrsub : ∀ c ∈ r, c ∈ B := by
        intro c hc
        rw [hl2]
        exact List.mem_append_right _ (List.mem_cons_of_mem _ hc)
      refine wf_assemble hctlr hBsub hFsub hBh ?_ ?_ ?_ c2 c3
        (fun c hc => hrsub _ (c4 c hc)) c5 c6 c7 c8
        (fun c hc => hrsub _ (c9 c hc)) c10 (fun c hc => hrsub _ (c11 c hc)) c12 c13
      · intro c hc
        rw [hsd] at hc
        obtain ⟨d, hd, rfl⟩ := List.mem_map.mp hc
        exact isSchemeChar_toLower (hpre d hd)
      · rw [hsd]
        exact map_toLower_idem sc
      · obtain ⟨c0, cs0, hpc, hal0⟩ := halp rfl
        right
        refine ⟨c0.toLower, cs0.map Char.toLower, ?_, isAlphaCode_toLower hal0⟩
        rw [hsd, hpc]
        rfl


theorem inject_then_parse {raw : String} {u : GoURL} (pw : Option String)
    (h : goURLParse raw = some u) (hh : u.host ≠ "") :
    ∃ us : Option String, (pw = none → us = none) ∧
      goURLParse (goURLString { u with user := some ("x-access-token", pw) }) =
        some { u with user := some ("x-access-token", us) } := by
  obtain ⟨hS1, hS2, hS3, hop, hph, hhost, hpath, hpathf, hqf, hfq, hfrag⟩ :=
    goURLParse_host_wf h hh
  have hdata := goURLString_inject_data u pw hop hpath
  obtain ⟨us, hus, hp2⟩ := goURLParse_authority_form
    (goURLString { u with user := some ("x-access-token", pw) })
    u.scheme.data u.host.data u.path.data u.rawQuery.data u.fragment.data
    u.forceQuery pw u.host hdata hS1 hS2 hS3 hph hhost hpath hpathf hqf
    (fun hf => by rw [hfq hf]) hfrag
  have hrec : ({ scheme := String.mk u.scheme.data,
                 user := some ("x-access-token", us), host := u.host,
                 path := String.mk u.path.data, forceQuery := u.forceQuery,
                 rawQuery := String.mk u.rawQuery.data,
                 fragment := String.mk u.fragment.data } : GoURL) =
      { u with user := some ("x-access-token", us) } := by
    cases u with
    | mk sch op usr hst pth fq rq fr =>
      dsimp only at hop ⊢
      subst hop
      rfl
  rw [hrec] at hp2
  exact ⟨us, hus, hp2⟩

/-- C8: for every URL that parses with a nonempty host (the authority form
used for git remotes) and every token, redacting the URL obtained by
injecting the token yields a URL whose userinfo is exactly x-access-token
with no password and whose scheme, host, path, query, and fragment equal
those of the original URL.  (The original claim quantified over all
parseable URLs; `c8_counterexample` shows it fails for opaque URLs such
as mailto.) -/
theorem c8_inject_redact (raw token : String) (u : GoURL)
    (hparse : goURLParse raw = some u) (hhost : u.host ≠ "") :
    ∃ s1 u2, injectToken raw token = some s1 ∧
      goURLParse (RedactToken s1) = some u2 ∧
      u2.user = some ("x-access-token", none) ∧ u2.scheme = u.scheme ∧
      u2.opaquePart = u.opaquePart ∧ u2.host = u.host ∧ u2.path = u.path ∧
      u2.forceQuery = u.forceQuery ∧ u2.rawQuery = u.rawQuery ∧
      u2.fragment = u.fragment := by
  have hinj : injectToken raw token =
      some (goURLString { u with user := some ("x-access-token", some token) }) := by
    unfold injectToken
    rw [hparse]
    rfl
  obtain ⟨us1, hus1, hp1⟩ := inject_then_parse (some token) hparse hhost
  refine ⟨_, { u with user := some ("x-access-token", none) }, hinj, ?_, rfl, rfl, rfl,
    rfl, rfl, rfl, rfl, rfl⟩
  unfold RedactToken
  rw [hp1]
  dsimp only
  rw [if_pos
    (show (some (("x-access-token" : String), us1)).isSome = true from rfl)]
  obtain ⟨us2, hus2, hp3⟩ := inject_then_parse (none : Option String) hparse hhost
  rw [hus2 rfl] at hp3
  exact hp3


/-- C8 counterexample: "mailto:a@b" is a parseable URL, but injecting a
token into it returns it unchanged (url.String ignores the user field when
Opaque is nonempty), so the redacted result has no userinfo at all, not
x-access-token. -/
theorem c8_counterexample :
    (goURLParse "mailto:a@b").isSome = true ∧
      injectToken "mailto:a@b" "tok" = some "mailto:a@b" ∧
      (goURLParse (RedactToken "mailto:a@b")).map GoURL.user = some none := by
  decide

/-- Witness for `c8_inject_redact` at a concrete https remote URL. -/
theorem c8_witness :
    goURLParse "https://host/org/repo.git" =
        some { scheme := "https", host := "host", path := "/org/repo.git" } ∧
      ({ scheme := "https", host := "host", path := "/org/repo.git" } : GoURL).host ≠ "" ∧
      (∃ s1 u2, injectToken "https://host/org/repo.git" "tok" = some s1 ∧
        goURLParse (RedactToken s1) = some u2 ∧
        u2.user = some ("x-access-token", none) ∧
        u2.scheme = ({ scheme := "https", host := "host", path := "/org/repo.git" } : GoURL).scheme ∧
        u2.opaquePart = ({ scheme := "https", host := "host", path := "/org/repo.git" } : GoURL).opaquePart ∧
        u2.host = ({ scheme := "https", host := "host", path := "/org/repo.git" } : GoURL).host ∧
        u2.path = ({ scheme := "https", host := "host", path := "/org/repo.git" } : GoURL).path ∧
        u2.forceQuery = ({ scheme := "https", host := "host", path := "/org/repo.git" } : GoURL).forceQuery ∧
        u2.rawQuery = ({ scheme := "https", host := "host", path := "/org/repo.git" } : GoURL).rawQuery ∧
        u2.fragment = ({ scheme := "https", host := "host", path := "/org/repo.git" } : GoURL).fragment) :=
  ⟨by decide, by decide,
    c8_inject_redact "https://host/org/repo.git" "tok"
      { scheme := "https", host := "host", path := "/org/repo.git" }
      (by decide) (by decide)⟩



/-!
## C7: LLM output parsing (llm.go ParseResponse / extractResponseJSON)

The model embeds the scan loop of `extractResponseJSON` together with the
parts of `encoding/json` it exercises: a fuel-based decoder for one JSON
value (`parseJSONValue`, mirroring `json.Decoder.Decode`; the number
lexeme is a superset of Go's grammar, and surrogate pairs and non-ASCII
trim sets are noted at the definitions) and `json.Unmarshal` into the
`Response` struct (`unmarshalResponse`: unknown keys ignored, ASCII
case-insensitive key match, later duplicate keys overwrite, wrong value
types fail).
-/


/-- One decoded JSON value.  `num` keeps the raw lexeme. -/
inductive JSONValue where
  | str (s : String)
  | num (s : String)
  | boolean (b : Bool)
  | null
  | arr (xs : List JSONValue)
  | obj (members : List (String × JSONValue))

/-- JSON insignificant whitespace (RFC 8259): space, tab, newline, return. -/
def jsonWS (c : Char) : Bool :=
  c = ' ' ∨ c = '\t' ∨ c = '\n' ∨ c = '\r'

def skipWS (cs : List Char) : List Char := cs.dropWhile jsonWS

def isJSONDigit (c : Char) : Bool := decide (48 ≤ c.toNat) && decide (c.toNat ≤ 57)

/-- Characters that may occur in a JSON number lexeme.  The model lexes a
number as the maximal run of such characters (a superset of Go's number
grammar; the difference only concerns malformed inputs that Go rejects). -/
def isNumChar (c : Char) : Bool :=
  isJSONDigit c || c == '-' || c == '+' || c == '.' || c == 'e' || c == 'E'

def hexDigitVal (c : Char) : Option Nat :=
  if isJSONDigit c then some (c.toNat - 48)
  else if decide (65 ≤ c.toNat) && decide (c.toNat ≤ 70) then some (c.toNat - 55)
  else if decide (97 ≤ c.toNat) && decide (c.toNat ≤ 102) then some (c.toNat - 87)
  else none

/-- Body of a JSON string after the opening quote: decoded content plus the
input after the closing quote.  Escapes follow RFC 8259 / encoding/json
(surrogate-pair recombination of consecutive \\u escapes is not modelled). -/
def parseStringBody : List Char → Option (List Char × List Char)
  | [] => none
  | c :: rest =>
    if c = '"' then some ([], rest)
    else if c = '\\' then
      match rest with
      | [] => none
      | e :: rest2 =>
        if e = 'u' then
          match rest2 with
          | h1 :: h2 :: h3 :: h4 :: rest3 =>
            match hexDigitVal h1, hexDigitVal h2, hexDigitVal h3, hexDigitVal h4 with
            | some a, some b, some cc, some d =>
              (parseStringBody rest3).map fun p =>
                (Char.ofNat (4096 * a + 256 * b + 16 * cc + d) :: p.1, p.2)
            | _, _, _, _ => none
          | _ => none
        else
          match (if e = '"' then some '"'
                 else if e = '/' then some '/'
                 else if e = 'b' then some (Char.ofNat 8)
                 else if e = 'f' then some (Char.ofNat 12)
                 else if e = 'n' then some '\n'
                 else if e = 'r' then some '\r'
                 else if e = 't' then some '\t'
                 else if e = '\\' then some '\\'
                 else none) with
          | some d => (parseStringBody rest2).map fun p => (d :: p.1, p.2)
          | none => none
    else if c.toNat < 32 then none
    else (parseStringBody rest).map fun p => (c :: p.1, p.2)

def parseNumberLex (cs : List Char) : Option (String × List Char) :=
  match cs.takeWhile isNumChar with
  | [] => none
  | lex => some (String.mk lex, cs.dropWhile isNumChar)

def expectLit (rest lit : List Char) (v : JSONValue) : Option (JSONValue × List Char) :=
  if rest.take lit.length = lit then some (v, rest.drop lit.length) else none

mutual

/-- One JSON value at the head of the input (no leading whitespace), with
the remaining input; `none` on malformed input, mirroring a failing
`json.Decoder.Decode`.  Fuel bounds nesting; any fuel above the input
length is enough. -/
def parseJSONValue : Nat → List Char → Option (JSONValue × List Char)
  | 0, _ => none
  | Nat.succ _, [] => none
  | Nat.succ fuel, c :: rest =>
    if c = '{' then
      if (skipWS rest).head? = some '}' then some (.obj [], (skipWS rest).tail)
      else parseJSONMembers fuel (skipWS rest) []
    else if c = '[' then
      if (skipWS rest).head? = some ']' then some (.arr [], (skipWS rest).tail)
      else parseJSONItems fuel (skipWS rest) []
    else if c = '"' then (parseStringBody rest).map fun p => (.str (String.mk p.1), p.2)
    else if c = 't' then expectLit rest ['r', 'u', 'e'] (.boolean true)
    else if c = 'f' then expectLit rest ['a', 'l', 's', 'e'] (.boolean false)
    else if c = 'n' then expectLit rest ['u', 'l', 'l'] .null
    else if isNumChar c then (parseNumberLex (c :: rest)).map fun p => (.num p.1, p.2)
    else none

/-- Members of a JSON object, positioned at a key (after `\x7b` and optional
whitespace, the object being nonempty). -/
def parseJSONMembers : Nat → List Char → List (String × JSONValue) →
    Option (JSONValue × List Char)
  | 0, _, _ => none
  | Nat.succ _, [], _ => none
  | Nat.succ fuel, c :: rest, acc =>
    if c = '"' then
      (parseStringBody rest).bind fun p =>
        if (skipWS p.2).head? = some ':' then
          (parseJSONValue fuel (skipWS (skipWS p.2).tail)).bind fun q =>
            if (skipWS q.2).head? = some ',' then
              parseJSONMembers fuel (skipWS (skipWS q.2).tail)
                (acc ++ [(String.mk p.1, q.1)])
            else if (skipWS q.2).head? = some '}' then
              some (.obj (acc ++ [(String.mk p.1, q.1)]), (skipWS q.2).tail)
            else none
        else none
    else none

/-- Items of a JSON array, positioned at a value (the array being
nonempty). -/
def parseJSONItems : Nat → List Char → List JSONValue →
    Option (JSONValue × List Char)
  | 0, _, _ => none
  | Nat.succ fuel, cs, acc =>
    (parseJSONValue fuel cs).bind fun q =>
      if (skipWS q.2).head? = some ',' then
        parseJSONItems fuel (skipWS (skipWS q.2).tail) (acc ++ [q.1])
      else if (skipWS q.2).head? = some ']' then
        some (.arr (acc ++ [q.1]), (skipWS q.2).tail)
      else none

end


/-- Parsed LLM output (llm.go `Response`); `files` is the decoded
`map[string]string` as an association list in member order. -/
structure Response where
  decision : String := ""
  needsInfoComment : String := ""
  commitMessage : String := ""
  prTitle : String := ""
  prBody : String := ""
  patch : String := ""
  files : List (String × String) := []
  summary : String := ""
deriving DecidableEq, Repr

/-- encoding/json matches object keys to struct tags case-insensitively
(ASCII fold here; Go uses EqualFold). -/
def keyMatches (k tag : String) : Bool :=
  k.data.map Char.toLower == tag.data

def collectStringMap : List (String × JSONValue) → Option (List (String × String))
  | [] => some []
  | (k, .str s) :: rest => (collectStringMap rest).map fun m => (k, s) :: m
  | _ => none

/-- Effect of one object member on the struct during `json.Unmarshal`:
unknown keys are ignored, a matching key requires the value to have the
field's type, and later members overwrite earlier ones. -/
def applyMember (r : Response) (k : String) (v : JSONValue) : Except String Response :=
  if keyMatches k "decision" then
    match v with
    | .str s => .ok { r with decision := s }
    | _ => .error "cannot unmarshal into decision"
  else if keyMatches k "needs_info_comment" then
    match v with
    | .str s => .ok { r with needsInfoComment := s }
    | _ => .error "cannot unmarshal into needs_info_comment"
  else if keyMatches k "commit_message" then
    match v with
    | .str s => .ok { r with commitMessage := s }
    | _ => .error "cannot unmarshal into commit_message"
  else if keyMatches k "pr_title" then
    match v with
    | .str s => .ok { r with prTitle := s }
    | _ => .error "cannot unmarshal into pr_title"
  else if keyMatches k "pr_body" then
    match v with
    | .str s => .ok { r with prBody := s }
    | _ => .error "cannot unmarshal into pr_body"
  else if keyMatches k "patch" then
    match v with
    | .str s => .ok { r with patch := s }
    | _ => .error "cannot unmarshal into patch"
  else if keyMatches k "files" then
    match v with
    | .obj fs =>
      match collectStringMap fs with
      | some m => .ok { r with files := m }
      | none => .error "cannot unmarshal into files"
    | _ => .error "cannot unmarshal into files"
  else if keyMatches k "summary" then
    match v with
    | .str s => .ok { r with summary := s }
    | _ => .error "cannot unmarshal into summary"
  else .ok r

def unmarshalMembers : Response → List (String × JSONValue) → Except String Response
  | r, [] => .ok r
  | r, (k, v) :: rest =>
    match applyMember r k v with
    | .ok r2 => unmarshalMembers r2 rest
    | .error e => .error e

/-- `json.Unmarshal(raw, &resp)` for a decoded value. -/
def unmarshalResponse : JSONValue → Except String Response
  | .obj ms => unmarshalMembers {} ms
  | _ => .error "cannot unmarshal into Response"

/-- llm.go `parseResponseJSON` applied to a decoded value. -/
def parseResponseJSON (v : JSONValue) : Except String Response :=
  (unmarshalResponse v).bind fun resp =>
    if resp.decision = "" then .error "missing decision" else .ok resp

def isObjV : JSONValue → Bool
  | .obj _ => true
  | _ => false

/-- llm.go `decodeResponseFrom`: decode the first JSON value of `data`
(`decodeFirstJSONObject`; the error side carries the decoder's offset,
which Go reports as 0 when decoding fails), require it to be an object
(Go checks that the trimmed raw value starts with `\x7b`), and unmarshal
it. -/
def decodeResponseFrom (data : List Char) : Except (Nat × String) Response :=
  (parseJSONValue (data.length + 1) data).elim (.error (0, "invalid JSON"))
    fun p =>
      if isObjV p.1 then
        Except.mapError (fun e => (data.length - p.2.length, e)) (parseResponseJSON p.1)
      else .error (data.length - p.2.length, "LLM output is not a JSON object")

/-- One iteration of the scan loop of llm.go `extractResponseJSON`, applied
to the decode result of the candidate at `idx`: on failure the scan resumes
at the next `\x7b` after the decoded prefix when the decoder consumed one
(offset > 0), else after `idx`, and the error of the failed candidate is
what the loop returns when no later candidate exists. -/
def scanStep (trimmed : List Char) (idx : Nat) (cont : Nat → Except String Response) :
    Except (Nat × String) Response → Except String Response
  | .ok resp => .ok resp
  | .error (offset, msg) =>
    if 0 < offset then
      if trimmed.length ≤ idx + offset then .error msg
      else
        ((trimmed.drop (idx + offset)).findIdx? (· = '{')).elim (.error msg)
          fun next => cont (idx + offset + next)
    else
      ((trimmed.drop (idx + 1)).findIdx? (· = '{')).elim (.error msg)
        fun next => cont (idx + 1 + next)

/-- The scan loop of llm.go `extractResponseJSON`; `idx` is the position of
the current candidate `\x7b` in `trimmed`.  Fuel `trimmed.length + 1` is
enough since `idx` strictly grows. -/
def scanLoop : Nat → List Char → Nat → Except String Response
  | 0, _, _ => .error "out of fuel"
  | Nat.succ fuel, trimmed, idx =>
    scanStep trimmed idx (scanLoop fuel trimmed) (decodeResponseFrom (trimmed.drop idx))

/-- ASCII whitespace trimmed by `bytes.TrimSpace` (Go also trims non-ASCII
unicode space, which the model ignores). -/
def goSpaceByte (c : Char) : Bool :=
  c = ' ' ∨ c = '\t' ∨ c = '\n' ∨ c = '\x0b' ∨ c = '\x0c' ∨ c = '\r'

def trimSpaceBytes (cs : List Char) : List Char :=
  ((cs.dropWhile goSpaceByte).reverse.dropWhile goSpaceByte).reverse

/-- llm.go `ParseResponse` / `extractResponseJSON`. -/
def ParseResponse (data : String) : Except String Response :=
  let trimmed := trimSpaceBytes data.data
  if trimmed = [] then .error "LLM output is empty"
  else
    (trimmed.findIdx? (· = '{')).elim (.error "LLM output missing JSON object")
      fun idx => scanLoop (trimmed.length + 1) trimmed idx

instance : DecidableEq (Except String Response) := fun a b =>
  match a, b with
  | .ok x, .ok y =>
    if h : x = y then isTrue (by rw [h]) else isFalse (by intro e; injection e; contradiction)
  | .error x, .error y =>
    if h : x = y then isTrue (by rw [h]) else isFalse (by intro e; injection e; contradiction)
  | .ok _, .error _ => isFalse (by intro e; injection e)
  | .error _, .ok _ => isFalse (by intro e; injection e)






/-! ### parser extension lemmas -/

theorem dropWhile_append_ne {p : Char → Bool} {a : List Char} (t : List Char)
    (h : a.dropWhile p ≠ []) : (a ++ t).dropWhile p = a.dropWhile p ++ t := by
  induction a with
  | nil => exact absurd rfl h
  | cons c a ih =>
    rw [List.dropWhile_cons] at h
    by_cases hc : p c = true
    · rw [if_pos hc] at h
      rw [List.cons_append, List.dropWhile_cons, if_pos hc, List.dropWhile_cons, if_pos hc]
      exact ih h
    · rw [if_neg hc] at h
      rw [List.cons_append, List.dropWhile_cons, if_neg hc, List.dropWhile_cons, if_neg hc,
        List.cons_append]

theorem dropWhile_append_all {p : Char → Bool} {a : List Char} (t : List Char)
    (h : a.dropWhile p = []) : (a ++ t).dropWhile p = t.dropWhile p := by
  induction a with
  | nil => rfl
  | cons c a ih =>
    rw [List.dropWhile_cons] at h
    by_cases hc : p c = true
    · rw [if_pos hc] at h
      rw [List.cons_append, List.dropWhile_cons, if_pos hc]
      exact ih h
    · rw [if_neg hc] at h
      simp at h

theorem takeWhile_append_ne {p : Char → Bool} {a : List Char} (t : List Char)
    (h : a.dropWhile p ≠ []) : (a ++ t).takeWhile p = a.takeWhile p := by
  induction a with
  | nil => exact absurd rfl h
  | cons c a ih =>
    rw [List.dropWhile_cons] at h
    by_cases hc : p c = true
    · rw [if_pos hc] at h
      rw [List.cons_append, List.takeWhile_cons, if_pos hc, List.takeWhile_cons, if_pos hc,
        ih h]
    · rw [List.cons_append, List.takeWhile_cons, if_neg hc, List.takeWhile_cons, if_neg hc]

theorem skipWS_append_ne {a : List Char} (t : List Char) (h : skipWS a ≠ []) :
    skipWS (a ++ t) = skipWS a ++ t :=
  dropWhile_append_ne t h


theorem parseStringBody_append {cs content rest : List Char} (t : List Char)
    (h : parseStringBody cs = some (content, rest)) :
    parseStringBody (cs ++ t) = some (content, rest ++ t) := by
  induction cs using parseStringBody.induct generalizing content rest with
  | case1 => simp [parseStringBody] at h
  | case2 rest2 =>
    unfold parseStringBody at h
    rw [if_pos rfl] at h
    simp only [Option.some.injEq, Prod.mk.injEq] at h
    obtain ⟨h1, h2⟩ := h
    subst h1
    subst h2
    rw [List.cons_append]
    unfold parseStringBody
    rw [if_pos rfl]
  | case3 hne =>
    unfold parseStringBody at h
    rw [if_neg (by decide : ¬ ('\\' : Char) = '"'), if_pos rfl] at h
    simp at h
  | case4 h1 h2 h3 h4 rest3 a b cc d hd hcc hb ha hne ih =>
    unfold parseStringBody at h
    rw [if_neg (by decide : ¬ ('\\' : Char) = '"'), if_pos rfl] at h
    dsimp only at h
    rw [if_pos (rfl : ('u' : Char) = 'u')] at h
    rw [ha, hb, hcc, hd] at h
    dsimp only at h
    rcases hp : parseStringBody rest3 with _ | ⟨p1, p2⟩
    · rw [hp] at h
      simp at h
    · rw [hp] at h
      simp only [Option.map_some', Option.some.injEq, Prod.mk.injEq] at h
      obtain ⟨h5, h6⟩ := h
      subst h5
      subst h6
      simp only [List.cons_append]
      unfold parseStringBody
      rw [if_neg (by decide : ¬ ('\\' : Char) = '"'), if_pos rfl]
      dsimp only
      rw [if_pos (rfl : ('u' : Char) = 'u')]
      rw [ha, hb, hcc, hd]
      dsimp only
      rw [ih hp]
      rfl
  | case5 h1 h2 h3 h4 rest3 hno hne =>
    exfalso
    unfold parseStringBody at h
    rw [if_neg (by decide : ¬ ('\\' : Char) = '"'), if_pos rfl] at h
    dsimp only at h
    rw [if_pos (rfl : ('u' : Char) = 'u')] at h
    rcases ha : hexDigitVal h1 with _ | a <;> rcases hb : hexDigitVal h2 with _ | b <;>
      rcases hcc : hexDigitVal h3 with _ | cc <;> rcases hd : hexDigitVal h4 with _ | d <;>
        rw [ha, hb, hcc, hd] at h <;>
        first
          | exact hno _ _ _ _ ha hb hcc hd
          | (dsimp only at h; exact absurd h (by simp))
  | case6 rest2 hshape hne =>
    exfalso
    unfold parseStringBody at h
    rw [if_neg (by decide : ¬ ('\\' : Char) = '"'), if_pos rfl] at h
    dsimp only at h
    rw [if_pos (rfl : ('u' : Char) = 'u')] at h
    rcases rest2 with _ | ⟨x1, r1⟩
    · dsimp only at h
      exact absurd h (by simp)
    rcases r1 with _ | ⟨x2, r2⟩
    · dsimp only at h
      exact absurd h (by simp)
    rcases r2 with _ | ⟨x3, r3⟩
    · dsimp only at h
      exact absurd h (by simp)
    rcases r3 with _ | ⟨x4, r4⟩
    · dsimp only at h
      exact absurd h (by simp)
    exact hshape x1 x2 x3 x4 r4 rfl
  | case7 e rest2 hneu d hesc hne ih =>
    unfold parseStringBody at h
    rw [if_neg (by decide : ¬ ('\\' : Char) = '"'), if_pos rfl] at h
    dsimp only at h
    rw [if_neg hneu, hesc] at h
    dsimp only at h
    rcases hp : parseStringBody rest2 with _ | ⟨p1, p2⟩
    · rw [hp] at h
      simp at h
    · rw [hp] at h
      simp only [Option.map_some', Option.some.injEq, Prod.mk.injEq] at h
      obtain ⟨h5, h6⟩ := h
      subst h5
      subst h6
      simp only [List.cons_append]
      unfold parseStringBody
      rw [if_neg (by decide : ¬ ('\\' : Char) = '"'), if_pos rfl]
      dsimp only
      rw [if_neg hneu, hesc]
      dsimp only
      rw [ih hp]
      rfl
  | case8 e rest2 hneu hesc hne =>
    exfalso
    unfold parseStringBody at h
    rw [if_neg (by decide : ¬ ('\\' : Char) = '"'), if_pos rfl] at h
    dsimp only at h
    rw [if_neg hneu, hesc] at h
    dsimp only at h
    exact absurd h (by simp)
  | case9 e rest2 hq hbs hctl =>
    unfold parseStringBody at h
    rw [if_neg hq, if_neg hbs, if_pos hctl] at h
    simp at h
  | case10 e rest2 hq hbs hctl ih =>
    unfold parseStringBody at h
    rw [if_neg hq, if_neg hbs, if_neg hctl] at h
    rcases hp : parseStringBody rest2 with _ | ⟨p1, p2⟩
    · rw [hp] at h
      simp at h
    · rw [hp] at h
      simp only [Option.map_some', Option.some.injEq, Prod.mk.injEq] at h
      obtain ⟨h5, h6⟩ := h
      subst h5
      subst h6
      rw [List.cons_append]
      unfold parseStringBody
      rw [if_neg hq, if_neg hbs, if_neg hctl, ih hp]
      rfl

theorem parseNumberLex_append {cs rest : List Char} {lex : String} (t : List Char)
    (h : parseNumberLex cs = some (lex, rest)) (hr : rest ≠ []) :
    parseNumberLex (cs ++ t) = some (lex, rest ++ t) := by
  unfold parseNumberLex at h ⊢
  rcases htw : cs.takeWhile isNumChar with _ | ⟨d, l⟩
  · rw [htw] at h
    simp at h
  · rw [htw] at h
    dsimp only at h
    simp only [Option.some.injEq, Prod.mk.injEq] at h
    obtain ⟨h1, h2⟩ := h
    have hdw : cs.dropWhile isNumChar ≠ [] := by
      rw [h2]
      exact hr
    rw [takeWhile_append_ne t hdw, htw]
    dsimp only
    rw [dropWhile_append_ne t hdw, h1, h2]

theorem parseJSONValue_nil (f : Nat) : parseJSONValue f [] = none := by
  cases f with
  | zero => rfl
  | succ f => rfl

theorem parseJSONMembers_nil (f : Nat) (acc : List (String × JSONValue)) :
    parseJSONMembers f [] acc = none := by
  cases f with
  | zero => rfl
  | succ f => rfl

def isNumV : JSONValue → Bool
  | .num _ => true
  | _ => false

theorem head?_append_ne {l : List Char} (t : List Char) (h : l ≠ []) :
    (l ++ t).head? = l.head? := by
  cases l with
  | nil => exact absurd rfl h
  | cons c l => rfl

theorem tail_append_ne {l : List Char} (t : List Char) (h : l ≠ []) :
    (l ++ t).tail = l.tail ++ t := by
  cases l with
  | nil => exact absurd rfl h
  | cons c l => rfl

theorem parseJSONItems_nil (f : Nat) (acc : List JSONValue) :
    parseJSONItems f [] acc = none := by
  cases f with
  | zero => rfl
  | succ f =>
    unfold parseJSONItems
    rw [parseJSONValue_nil]
    rfl

theorem expectLit_append {rest lit : List Char} {vl v : JSONValue} {rest2 : List Char}
    (t : List Char) (h : expectLit rest lit vl = some (v, rest2)) :
    expectLit (rest ++ t) lit vl = some (v, rest2 ++ t) := by
  unfold expectLit at h ⊢
  split_ifs at h with htk
  · have hlen : lit.length ≤ rest.length := by
      have h2 := congrArg List.length htk
      rw [List.length_take] at h2
      omega
    rw [List.take_append_of_le_length hlen, if_pos htk,
      List.drop_append_of_le_length hlen]
    simp only [Option.some.injEq, Prod.mk.injEq] at h
    obtain ⟨hv, hr⟩ := h
    subst hv
    rw [← hr]

theorem parse_ext_all (f : Nat) :
    (∀ cs v rest f2 t, parseJSONValue f cs = some (v, rest) → f ≤ f2 →
      (rest ≠ [] ∨ isNumV v = false) →
      parseJSONValue f2 (cs ++ t) = some (v, rest ++ t)) ∧
    (∀ cs acc v rest f2 t, parseJSONMembers f cs acc = some (v, rest) → f ≤ f2 →
      parseJSONMembers f2 (cs ++ t) acc = some (v, rest ++ t)) ∧
    (∀ cs acc v rest f2 t, parseJSONItems f cs acc = some (v, rest) → f ≤ f2 →
      parseJSONItems f2 (cs ++ t) acc = some (v, rest ++ t)) := by
  induction f with
  | zero =>
    refine ⟨?_, ?_, ?_⟩
    · intro cs v rest f2 t h _ _
      simp [parseJSONValue] at h
    · intro cs acc v rest f2 t h _
      simp [parseJSONMembers] at h
    · intro cs acc v rest f2 t h _
      simp [parseJSONItems] at h
  | succ f ih =>
    obtain ⟨ihV, ihM, ihI⟩ := ih
    refine ⟨?_, ?_, ?_⟩
    · intro cs v rest f2 t h hle hcond
      cases f2 with
      | zero => omega
      | succ f2 =>
        have hf : f ≤ f2 := by omega
        cases cs with
        | nil =>
          rw [parseJSONValue_nil] at h
          exact absurd h (by simp)
        | cons c rest0 =>
          rw [List.cons_append]
          unfold parseJSONValue at h ⊢
          by_cases h1 : c = '{'
          · rw [if_pos h1] at h ⊢
            by_cases hb : (skipWS rest0).head? = some '}'
            · rw [if_pos hb] at h
              have hne : skipWS rest0 ≠ [] := by
                intro he
                rw [he] at hb
                simp at hb
              rw [skipWS_append_ne t hne]
              rw [if_pos (by rw [head?_append_ne t hne]; exact hb)]
              rw [tail_append_ne t hne]
              simp only [Option.some.injEq, Prod.mk.injEq] at h
              obtain ⟨hv, hr⟩ := h
              subst hv
              subst hr
              rfl
            · rw [if_neg hb] at h
              have hne : skipWS rest0 ≠ [] := by
                intro he
                rw [he, parseJSONMembers_nil] at h
                exact absurd h (by simp)
              rw [skipWS_append_ne t hne]
              rw [if_neg (by rw [head?_append_ne t hne]; exact hb)]
              exact ihM _ _ _ _ _ t h hf
          · rw [if_neg h1] at h ⊢
            by_cases h2 : c = '['
            · rw [if_pos h2] at h ⊢
              by_cases hb : (skipWS rest0).head? = some ']'
              · rw [if_pos hb] at h
                have hne : skipWS rest0 ≠ [] := by
                  intro he
                  rw [he] at hb
                  simp at hb
                rw [skipWS_append_ne t hne]
                rw [if_pos (by rw [head?_append_ne t hne]; exact hb)]
                rw [tail_append_ne t hne]
                simp only [Option.some.injEq, Prod.mk.injEq] at h
                obtain ⟨hv, hr⟩ := h
                subst hv
                subst hr
                rfl
              · rw [if_neg hb] at h
                have hne : skipWS rest0 ≠ [] := by
                  intro he
                  rw [he, parseJSONItems_nil] at h
                  exact absurd h (by simp)
                rw [skipWS_append_ne t hne]
                rw [if_neg (by rw [head?_append_ne t hne]; exact hb)]
                exact ihI _ _ _ _ _ t h hf
            · rw [if_neg h2] at h ⊢
              by_cases h3 : c = '"'
              · rw [if_pos h3] at h ⊢
                rcases hsb : parseStringBody rest0 with _ | ⟨p1, p2⟩
                · rw [hsb] at h
                  exact absurd h (by simp)
                · rw [hsb] at h
                  rw [parseStringBody_append t hsb]
                  simp only [Option.map_some', Option.some.injEq, Prod.mk.injEq] at h ⊢
                  obtain ⟨hv, hr⟩ := h
                  exact ⟨hv, by rw [← hr]⟩
              · rw [if_neg h3] at h ⊢
                by_cases h4 : c = 't'
                · rw [if_pos h4] at h ⊢
                  exact expectLit_append t h
                · rw [if_neg h4] at h ⊢
                  by_cases h5 : c = 'f'
                  · rw [if_pos h5] at h ⊢
                    exact expectLit_append t h
                  · rw [if_neg h5] at h ⊢
                    by_cases h6 : c = 'n'
                    · rw [if_pos h6] at h ⊢
                      exact expectLit_append t h
                    · rw [if_neg h6] at h ⊢
                      by_cases h7 : isNumChar c = true
                      · rw [if_pos h7] at h ⊢
                        rcases hnl : parseNumberLex (c :: rest0) with _ | ⟨lex, rest2⟩
                        · rw [hnl] at h
                          exact absurd h (by simp)
                        · rw [hnl] at h
                          simp only [Option.map_some', Option.some.injEq,
                            Prod.mk.injEq] at h
                          obtain ⟨hv, hr⟩ := h
                          have hrne : rest ≠ [] := by
                            rcases hcond with hc | hc
                            · exact hc
                            · rw [← hv] at hc
                              simp [isNumV] at hc
                          have hx := parseNumberLex_append t hnl (by rw [hr]; exact hrne)
                          rw [List.cons_append] at hx
                          rw [hx]
                          simp only [Option.map_some', Option.some.injEq, Prod.mk.injEq]
                          exact ⟨hv, by rw [← hr]⟩
                      · rw [if_neg h7] at h
                        exact absurd h (by simp)
    · intro cs acc v rest f2 t h hle
      cases f2 with
      | zero => omega
      | succ f2 =>
        have hf : f ≤ f2 := by omega
        cases cs with
        | nil =>
          rw [parseJSONMembers_nil] at h
          exact absurd h (by simp)
        | cons c rest0 =>
          rw [List.cons_append]
          unfold parseJSONMembers at h ⊢
          by_cases h1 : c = '"'
          · rw [if_pos h1] at h ⊢
            rcases hsb : parseStringBody rest0 with _ | ⟨key, rest2⟩
            · rw [hsb] at h
              exact absurd h (by simp)
            · rw [hsb] at h
              rw [parseStringBody_append t hsb]
              simp only [Option.some_bind] at h ⊢
              by_cases h2 : (skipWS rest2).head? = some ':'
              · rw [if_pos h2] at h
                have hne2 : skipWS rest2 ≠ [] := by
                  intro he
                  rw [he] at h2
                  simp at h2
                rw [skipWS_append_ne t hne2]
                rw [if_pos (by rw [head?_append_ne t hne2]; exact h2)]
                rw [tail_append_ne t hne2]
                rcases hv : parseJSONValue f (skipWS (skipWS rest2).tail) with _ | ⟨v1, rest4⟩
                · rw [hv] at h
                  exact absurd h (by simp)
                · rw [hv] at h
                  simp only [Option.some_bind] at h
                  have hsw3 : skipWS (skipWS rest2).tail ≠ [] := by
                    intro he
                    rw [he, parseJSONValue_nil] at hv
                    exact absurd hv (by simp)
                  by_cases h3 : (skipWS rest4).head? = some ','
                  · rw [if_pos h3] at h
                    have hr4 : rest4 ≠ [] := by
                      intro he
                      rw [he] at h3
                      simp [skipWS] at h3
                    have hvx := ihV _ v1 rest4 f2 t hv hf (Or.inl hr4)
                    rw [skipWS_append_ne t hsw3, hvx]
                    simp only [Option.some_bind]
                    have hne4 : skipWS rest4 ≠ [] := by
                      intro he
                      rw [he] at h3
                      simp at h3
                    rw [skipWS_append_ne t hne4]
                    rw [if_pos (by rw [head?_append_ne t hne4]; exact h3)]
                    rw [tail_append_ne t hne4]
                    have hsw5 : skipWS (skipWS rest4).tail ≠ [] := by
                      intro he
                      rw [he, parseJSONMembers_nil] at h
                      exact absurd h (by simp)
                    rw [skipWS_append_ne t hsw5]
                    exact ihM _ _ _ _ _ t h hf
                  · rw [if_neg h3] at h
                    by_cases h4 : (skipWS rest4).head? = some '}'
                    · rw [if_pos h4] at h
                      have hr4 : rest4 ≠ [] := by
                        intro he
                        rw [he] at h4
                        simp [skipWS] at h4
                      have hvx := ihV _ v1 rest4 f2 t hv hf (Or.inl hr4)
                      rw [skipWS_append_ne t hsw3, hvx]
                      simp only [Option.some_bind]
                      have hne4 : skipWS rest4 ≠ [] := by
                        intro he
                        rw [he] at h4
                        simp at h4
                      rw [skipWS_append_ne t hne4]
                      rw [if_neg (by rw [head?_append_ne t hne4]; exact h3)]
                      rw [if_pos (by rw [head?_append_ne t hne4]; exact h4)]
                      rw [tail_append_ne t hne4]
                      simp only [Option.some.injEq, Prod.mk.injEq] at h
                      obtain ⟨hv2, hr2⟩ := h
                      subst hv2
                      subst hr2
                      rfl
                    · rw [if_neg h4] at h
                      exact absurd h (by simp)
              · rw [if_neg h2] at h
                exact absurd h (by simp)
          · rw [if_neg h1] at h
            exact absurd h (by simp)
    · intro cs acc v rest f2 t h hle
      cases f2 with
      | zero => omega
      | succ f2 =>
        have hf : f ≤ f2 := by omega
        unfold parseJSONItems at h ⊢
        rcases hv : parseJSONValue f cs with _ | ⟨v1, rest1⟩
        · rw [hv] at h
          exact absurd h (by simp)
        · rw [hv] at h
          simp only [Option.some_bind] at h
          by_cases h2 : (skipWS rest1).head? = some ','
          · rw [if_pos h2] at h
            have hr1 : rest1 ≠ [] := by
              intro he
              rw [he] at h2
              simp [skipWS] at h2
            have hvx := ihV cs v1 rest1 f2 t hv hf (Or.inl hr1)
            rw [hvx]
            simp only [Option.some_bind]
            have hne1 : skipWS rest1 ≠ [] := by
              intro he
              rw [he] at h2
              simp at h2
            rw [skipWS_append_ne t hne1]
            rw [if_pos (by rw [head?_append_ne t hne1]; exact h2)]
            rw [tail_append_ne t hne1]
            have hsw2 : skipWS (skipWS rest1).tail ≠ [] := by
              intro he
              rw [he, parseJSONItems_nil] at h
              exact absurd h (by simp)
            rw [skipWS_append_ne t hsw2]
            exact ihI _ _ _ _ _ t h hf
          · rw [if_neg h2] at h
            by_cases h3 : (skipWS rest1).head? = some ']'
            · rw [if_pos h3] at h
              have hr1 : rest1 ≠ [] := by
                intro he
                rw [he] at h3
                simp [skipWS] at h3
              have hvx := ihV cs v1 rest1 f2 t hv hf (Or.inl hr1)
              rw [hvx]
              simp only [Option.some_bind]
              have hne1 : skipWS rest1 ≠ [] := by
                intro he
                rw [he] at h3
                simp at h3
              rw [skipWS_append_ne t hne1]
              rw [if_neg (by rw [head?_append_ne t hne1]; exact h2)]
              rw [if_pos (by rw [head?_append_ne t hne1]; exact h3)]
              rw [tail_append_ne t hne1]
              simp only [Option.some.injEq, Prod.mk.injEq] at h
              obtain ⟨hv2, hr2⟩ := h
              subst hv2
              subst hr2
              rfl
            · rw [if_neg h3] at h
              exact absurd h (by simp)

theorem findIdx_brace {a b : List Char} (h : '{' ∉ a) :
    (a ++ '{' :: b).findIdx? (· = '{') = some a.length := by
  suffices H : ∀ i, List.findIdx? (fun x => decide (x = '{')) (a ++ '{' :: b) i =
      some (a.length + i) by
    simpa using H 0
  induction a with
  | nil =>
    intro i
    rw [List.nil_append, List.findIdx?_cons]
    simp
  | cons c a ih =>
    rw [List.mem_cons, not_or] at h
    intro i
    rw [List.cons_append, List.findIdx?_cons,
      if_neg (by simp; exact fun e => h.1 e.symm)]
    rw [ih h.2 (i + 1)]
    have he : a.length + (i + 1) = (c :: a).length + i := by
      simp [List.length_cons]
      omega
    rw [he]

theorem findIdx_brace_none {l : List Char} (h : '{' ∉ l) :
    l.findIdx? (· = '{') = none := by
  suffices H : ∀ i, List.findIdx? (fun x => decide (x = '{')) l i = none by
    exact H 0
  induction l with
  | nil => intro i; rfl
  | cons c l ih =>
    rw [List.mem_cons, not_or] at h
    intro i
    rw [List.findIdx?_cons, if_neg (by simp; exact fun e => h.1 e.symm)]
    exact ih h.2 (i + 1)

theorem trimSpaceBytes_concat (Ld Dd Td : List Char)
    (hD0 : Dd.head? = some '{') (hDl : Dd.getLast? = some '}') :
    trimSpaceBytes (Ld ++ (Dd ++ Td)) =
      Ld.dropWhile goSpaceByte ++ (Dd ++ (Td.reverse.dropWhile goSpaceByte).reverse) := by
  rcases hdd : Dd with _ | ⟨c0, D1⟩
  · rw [hdd] at hD0
    simp at hD0
  rw [hdd] at hD0
  simp only [List.head?_cons, Option.some.injEq] at hD0
  unfold trimSpaceBytes
  have hfront : (Ld ++ ((c0 :: D1) ++ Td)).dropWhile goSpaceByte =
      Ld.dropWhile goSpaceByte ++ ((c0 :: D1) ++ Td) := by
    by_cases hL0 : Ld.dropWhile goSpaceByte = []
    · rw [dropWhile_append_all _ hL0, hL0, List.nil_append, List.cons_append,
        List.dropWhile_cons, if_neg (by rw [hD0]; decide)]
    · exact dropWhile_append_ne _ hL0
  rw [hfront]
  have hrevhead : Dd.reverse.head? = some '}' := by
    rw [List.head?_reverse]
    exact hDl
  rw [← hdd]
  rcases hrev : Dd.reverse with _ | ⟨c1, R1⟩
  · rw [hrev] at hrevhead
    simp at hrevhead
  rw [hrev] at hrevhead
  simp only [List.head?_cons, Option.some.injEq] at hrevhead
  by_cases hT0 : Td.reverse.dropWhile goSpaceByte = []
  · rw [show (Ld.dropWhile goSpaceByte ++ (Dd ++ Td)).reverse =
      Td.reverse ++ (Dd.reverse ++ (Ld.dropWhile goSpaceByte).reverse) from by
        simp [List.reverse_append]]
    rw [dropWhile_append_all _ hT0]
    rw [hrev, List.cons_append, List.dropWhile_cons, if_neg (by rw [hrevhead]; decide)]
    rw [hT0]
    rw [show (c1 :: (R1 ++ (Ld.dropWhile goSpaceByte).reverse)) =
      (c1 :: R1) ++ (Ld.dropWhile goSpaceByte).reverse from rfl]
    rw [← hrev]
    simp [List.reverse_append]
  · rw [show (Ld.dropWhile goSpaceByte ++ (Dd ++ Td)).reverse =
      Td.reverse ++ (Dd.reverse ++ (Ld.dropWhile goSpaceByte).reverse) from by
        simp [List.reverse_append]]
    rw [dropWhile_append_ne _ hT0]
    simp [List.reverse_append]

theorem decodeResponseFrom_obj {Dd Ts : List Char} {ms : List (String × JSONValue)}
    (hD : parseJSONValue (Dd.length + 1) Dd = some (.obj ms, [])) :
    decodeResponseFrom (Dd ++ Ts) =
      Except.mapError (fun e => (Dd.length, e)) (parseResponseJSON (.obj ms)) := by
  unfold decodeResponseFrom
  have hx := (parse_ext_all (Dd.length + 1)).1 Dd (.obj ms) [] ((Dd ++ Ts).length + 1) Ts
    hD (by rw [List.length_append]; omega) (Or.inr rfl)
  rw [List.nil_append] at hx
  rw [hx]
  dsimp only [Option.elim]
  rw [show (Dd ++ Ts).length - Ts.length = Dd.length from by rw [List.length_append]; omega]
  simp only [isObjV, if_true]

/-- C7: the LLM output parser tolerates prose around the decision object:
for every leading prose `L` without an opening brace, every JSON object
literal `D`, and every trailing prose `T`, `ParseResponse (L ++ D ++ T)`
returns the Outcome unmarshalled from `D` when it has a nonempty decision
field, and returns the missing-decision error when it does not (with `T`
brace-free in the error case).  (The original claim promised the first
balanced JSON object *containing* a decision field and invariance under
arbitrary prose; `c7_counterexample` refutes that: the scan resumes after
the whole decoded candidate, so a decision object nested inside a larger
object is never found.) -/
theorem c7_scan_prose (L D T : String) (ms : List (String × JSONValue))
    (hL : '{' ∉ L.data)
    (hD0 : D.data.head? = some '{') (hDl : D.data.getLast? = some '}')
    (hD : parseJSONValue (D.data.length + 1) D.data = some (.obj ms, [])) :
    (∀ r, parseResponseJSON (.obj ms) = .ok r →
      ParseResponse (L ++ D ++ T) = .ok r) ∧
    (parseResponseJSON (.obj ms) = .error "missing decision" → '{' ∉ T.data →
      ParseResponse (L ++ D ++ T) = .error "missing decision") := by
  obtain ⟨D1, hdd⟩ : ∃ D1, D.data = '{' :: D1 := by
    rcases hx : D.data with _ | ⟨c0, D1⟩
    · rw [hx] at hD0
      simp at hD0
    · rw [hx] at hD0
      simp only [List.head?_cons, Option.some.injEq] at hD0
      exact ⟨D1, by rw [hD0]⟩
  have hdata : (L ++ D ++ T).data = L.data ++ (D.data ++ T.data) := by
    simp [String.data_append, List.append_assoc]
  have htrim := trimSpaceBytes_concat L.data D.data T.data hD0 hDl
  set L2 := L.data.dropWhile goSpaceByte with hL2
  set T2 := (T.data.reverse.dropWhile goSpaceByte).reverse with hT2
  have hL2sub : '{' ∉ L2 := by
    intro hm
    exact hL ((List.dropWhile_sublist _).subset hm)
  have hPR : ParseResponse (L ++ D ++ T) =
      scanStep (L2 ++ '{' :: (D1 ++ T2)) L2.length
        (scanLoop ((L2 ++ '{' :: (D1 ++ T2)).length) (L2 ++ '{' :: (D1 ++ T2)))
        (Except.mapError (fun e => (D.data.length, e)) (parseResponseJSON (.obj ms))) := by
    unfold ParseResponse
    dsimp only
    rw [hdata, htrim]
    rw [show L2 ++ (D.data ++ T2) = L2 ++ '{' :: (D1 ++ T2) from by rw [hdd]; rfl]
    rw [if_neg (by simp)]
    rw [findIdx_brace hL2sub]
    dsimp only [Option.elim]
    rw [show (L2 ++ '{' :: (D1 ++ T2)).length + 1 =
      Nat.succ ((L2 ++ '{' :: (D1 ++ T2)).length) from rfl]
    unfold scanLoop
    rw [List.drop_left]
    rw [show ('{' : Char) :: (D1 ++ T2) = D.data ++ T2 from by rw [hdd, List.cons_append]]
    rw [decodeResponseFrom_obj hD]
  refine ⟨?_, ?_⟩
  · intro r hok
    rw [hPR, hok]
    rfl
  · intro herr hT
    rw [hPR, herr]
    rw [show Except.mapError (fun e => (D.data.length, e))
      (Except.error "missing decision" : Except String Response) =
      Except.error (D.data.length, "missing decision") from rfl]
    unfold scanStep
    dsimp only
    rw [if_pos (show 0 < D.data.length from by rw [hdd]; simp)]
    have hlen : (L2 ++ '{' :: (D1 ++ T2)).length =
        L2.length + D.data.length + T2.length := by
      rw [hdd]
      simp [List.length_append, List.length_cons]
      omega
    have hT2sub : '{' ∉ T2 := by
      intro hm
      have h1 : '{' ∈ T.data.reverse.dropWhile goSpaceByte := List.mem_reverse.mp hm
      have h2 : '{' ∈ T.data.reverse := (List.dropWhile_sublist _).subset h1
      exact hT (List.mem_reverse.mp h2)
    by_cases hT20 : T2 = []
    · rw [if_pos (by rw [hlen, hT20]; simp)]
    · rw [if_neg (by
        rw [hlen]
        have h0 : T2.length ≠ 0 := fun h0 => hT20 (List.length_eq_zero.mp h0)
        omega)]
      rw [show (L2 ++ '{' :: (D1 ++ T2)).drop (L2.length + D.data.length) = T2 from by
        rw [show L2 ++ '{' :: (D1 ++ T2) = (L2 ++ '{' :: D1) ++ T2 from by
          simp [List.append_assoc]]
        rw [show L2.length + D.data.length = (L2 ++ '{' :: D1).length from by
          rw [hdd]
          simp [List.length_append, List.length_cons]]
        exact List.drop_left _ _]
      rw [findIdx_brace_none hT2sub]
      rfl

/-- C7 counterexample: for input `\x7b"note": \x7b"decision": "stop"\x7d\x7d` the
parser reports a missing decision, even though the input contains a
balanced JSON object with a decision field (the nested one, which parses
to the stop Outcome on its own). -/
theorem c7_counterexample :
    ParseResponse "\x7b\"note\": \x7b\"decision\": \"stop\"\x7d\x7d" = .error "missing decision" ∧
      ParseResponse "\x7b\"decision\": \"stop\"\x7d" = .ok { decision := "stop" } ∧
      "\x7b\"decision\": \"stop\"\x7d".data <:+:
        "\x7b\"note\": \x7b\"decision\": \"stop\"\x7d\x7d".data := by
  decide

/-- Witness for `c7_scan_prose` at a concrete noisy LLM output. -/
theorem c7_witness :
    ParseResponse ("Result: " ++ "\x7b\"decision\": \"stop\", \"summary\": \"done\"\x7d" ++
        " Thanks! more text") =
      .ok { decision := "stop", summary := "done" } :=
  (c7_scan_prose "Result: " "\x7b\"decision\": \"stop\", \"summary\": \"done\"\x7d"
    " Thanks! more text"
    [("decision", .str "stop"), ("summary", .str "done")]
    (by decide) (by decide) (by decide) (by rfl)).1
    { decision := "stop", summary := "done" } (by rfl)


end GitSonic
